import Mathlib

/-!
Verification of the tydi-rust streaming encoder/decoder core.

The development shallowly embeds the repository's code:
* `TydiBinary` with `concatenate` / `split` from `src/binary.rs` (bytes are
  `Nat` values kept below 256, bit lengths are `Nat`; `u8` wrap-around is an
  explicit `% 256`; a `usize` underflow, an out-of-bounds index or a failed
  `assert!` is modelled as `Option.none`),
* `TydiPacket` with `convert`, `drill`, `inject`, `vectorize`,
  `vectorize_inner`, `finish` and `packets_from_binaries` from
  `src/drilling.rs` and `src/lib.rs`,
* the per-element codec `to_binary` / `from_binary`, which is not part of the
  sources (only its callers are) and is therefore modelled from the spec.
-/

namespace Tydi

/-! ## Bit-list helpers

`bitsToByte` packs a little list of booleans LSB-first into a byte, exactly as
the `From<Vec<bool>>` impl in `src/binary.rs` sets bit `i` of each byte for
chunk element `i`.  `ofBits` packs a whole bit list into bytes, 8 bits per
byte. -/

def bitsToByte (bs : List Bool) : Nat :=
  bs.foldr (fun b acc => (bif b then 1 else 0) + 2 * acc) 0

def ofBits (l : List Bool) : List Nat :=
  (List.range ((l.length + 7) / 8)).map fun j => bitsToByte ((l.drop (8 * j)).take 8)

theorem bitsToByte_lt (bs : List Bool) : bitsToByte bs < 2 ^ bs.length := by
  induction bs with
  | nil => simp [bitsToByte]
  | cons b rest ih =>
    simp only [bitsToByte, List.foldr_cons, List.length_cons, pow_succ]
    simp only [bitsToByte] at ih
    cases b
    · simp only [cond_false]
      omega
    · simp only [cond_true]
      omega

theorem testBit_bitsToByte (bs : List Bool) (t : Nat) :
    (bitsToByte bs).testBit t = bs.getD t false := by
  induction bs generalizing t with
  | nil => simp [bitsToByte]
  | cons b rest ih =>
    cases t with
    | zero =>
      simp only [bitsToByte, List.foldr_cons, List.getD_cons_zero]
      cases b <;> simp [Nat.testBit_zero, Nat.add_mul_mod_self_left]
    | succ t =>
      simp only [bitsToByte, List.foldr_cons, List.getD_cons_succ]
      rw [Nat.testBit_succ]
      have h2 : ((bif b then 1 else 0) + 2 * rest.foldr
          (fun b acc => (bif b then 1 else 0) + 2 * acc) 0) / 2 =
          rest.foldr (fun b acc => (bif b then 1 else 0) + 2 * acc) 0 := by
        cases b
        · simp
        · simp
          omega
      rw [h2]
      exact ih t

theorem bitsToByte_eq_of_testBit (bs : List Bool) (c : Nat)
    (h : ∀ t, bs.getD t false = c.testBit t) :
    bitsToByte bs = c := by
  apply Nat.eq_of_testBit_eq
  intro i
  rw [testBit_bitsToByte, h i]

theorem length_ofBits (l : List Bool) : (ofBits l).length = (l.length + 7) / 8 := by
  simp [ofBits]

theorem mem_ofBits_lt (l : List Bool) : ∀ b ∈ ofBits l, b < 256 := by
  intro b hb
  simp only [ofBits, List.mem_map, List.mem_range] at hb
  obtain ⟨j, _, rfl⟩ := hb
  calc bitsToByte ((l.drop (8 * j)).take 8) < 2 ^ ((l.drop (8 * j)).take 8).length :=
        bitsToByte_lt _
    _ ≤ 2 ^ 8 := Nat.pow_le_pow_right (by norm_num)
        (by rw [List.length_take]; exact min_le_left _ _)
    _ = 256 := by norm_num

theorem getElem?_ofBits (l : List Bool) (j : Nat) :
    (ofBits l)[j]? = if j < (l.length + 7) / 8 then
      some (bitsToByte ((l.drop (8 * j)).take 8)) else none := by
  simp only [ofBits, List.getElem?_map, List.getElem?_range]
  by_cases h : j < (l.length + 7) / 8
  · simp [h]
  · simp only [h, if_false]
    simp
    omega

theorem getD_ofBits_testBit (l : List Bool) (k : Nat) :
    ((ofBits l).getD (k / 8) 0).testBit (k % 8) = l.getD k false := by
  rw [List.getD_eq_getElem?_getD, getElem?_ofBits]
  by_cases h : k / 8 < (l.length + 7) / 8
  · simp only [h, if_true, Option.getD_some]
    rw [testBit_bitsToByte]
    rw [List.getD_eq_getElem?_getD, List.getD_eq_getElem?_getD,
      List.getElem?_take, if_pos (Nat.mod_lt _ (by norm_num)), List.getElem?_drop]
    have hidx : 8 * (k / 8) + k % 8 = k := by omega
    rw [hidx]
  · simp only [h, if_false, Option.getD_none, Nat.zero_testBit]
    have hk : (l.length + 7) / 8 ≤ k / 8 := Nat.le_of_not_lt h
    have hlk : l.length ≤ k := by omega
    rw [List.getD_eq_getElem?_getD, List.getElem?_eq_none hlk]
    rfl

theorem ofBits_cons_chunk (l : List Bool) (hne : l ≠ []) :
    ofBits l = bitsToByte (l.take 8) :: ofBits (l.drop 8) := by
  have hlen : 0 < l.length := List.length_pos.mpr hne
  apply List.ext_getElem?
  intro i
  rw [getElem?_ofBits]
  cases i with
  | zero =>
    rw [if_pos (by omega), List.getElem?_cons_zero, List.drop_zero]
  | succ i =>
    rw [List.getElem?_cons_succ, getElem?_ofBits, List.drop_drop, List.length_drop]
    have h8 : 8 + 8 * i = 8 * (i + 1) := by ring
    rw [h8]
    by_cases h : i + 1 < (l.length + 7) / 8
    · rw [if_pos h, if_pos (by omega)]
    · rw [if_neg h, if_neg (by omega)]

/-! ## The `TydiBinary` buffer (`src/binary.rs`)

A byte vector plus a bit length.  Bytes are `Nat` values; every operation of
the source that truncates to `u8` carries an explicit `% 256` or a shift that
cannot overflow.  A Rust panic — a failed `assert!`, a `usize` subtraction
underflow, an unchecked out-of-bounds `data[i]` or `last_mut().unwrap()` on an
empty vector — is modelled as `Option.none`. -/

structure TydiBinary where
  data : List Nat
  len : Nat
deriving DecidableEq

def TydiBinary.empty : TydiBinary := ⟨[], 0⟩

/-- `TydiBinary::new`: the constructor's `assert!(len <= data.len() * 8)`. -/
def TydiBinary.mk? (data : List Nat) (len : Nat) : Option TydiBinary :=
  if len ≤ data.length * 8 then some ⟨data, len⟩ else none

/-- The loop of `TydiBinary::concatenate` over `other.data`, for the
non-byte-aligned case.  `stb = self.len % 8`, `ts = 8 - stb`,
`bl = other.data.len()`, `blen = other.len`.  The state is the current last
byte of `new_data`; the returned list is the tail of `new_data` starting at
that byte.  The Rust condition
`i < other.data.len() - 1 || (other.len - (i * 8) > tail_space)` underflows
(panics) when the second disjunct is evaluated with `other.len < i * 8`. -/
def concatGo (stb bl blen ts : Nat) : Nat → Nat → List Nat → Option (List Nat)
  | _, lastByte, [] => some [lastByte]
  | i, lastByte, ob :: rest =>
    if i < bl - 1 then
      (concatGo stb bl blen ts (i + 1) (ob >>> ts) rest).map
        ((lastByte ||| ((ob <<< stb) % 256)) :: ·)
    else if blen < i * 8 then
      none
    else if blen - i * 8 > ts then
      (concatGo stb bl blen ts (i + 1) (ob >>> ts) rest).map
        ((lastByte ||| ((ob <<< stb) % 256)) :: ·)
    else
      concatGo stb bl blen ts (i + 1) (lastByte ||| ((ob <<< stb) % 256)) rest

/-- `TydiBinary::concatenate` from `src/binary.rs`. -/
def TydiBinary.concatenate (a b : TydiBinary) : Option TydiBinary :=
  if a.len = 0 then
    some b
  else if a.len % 8 = 0 then
    TydiBinary.mk? (a.data ++ b.data) (a.len + b.len)
  else
    match a.data.getLast? with
    | none => none
    | some lastByte => do
      let tail ← concatGo (a.len % 8) b.data.length b.len (8 - a.len % 8)
        0 lastByte b.data
      TydiBinary.mk? (a.data.dropLast ++ tail) (a.len + b.len)

/-- `for i in 0..full_bytes1 { data1.push(self.data[i]) }` with the panicking
index read. -/
def readBytes (d : List Nat) : Nat → Nat → Option (List Nat)
  | _, 0 => some []
  | s, k + 1 => do
    let b ← d[s]?
    let rest ← readBytes d (s + 1) k
    pure (b :: rest)

/-- The second loop of `TydiBinary::split`, producing `data2`: each output
byte combines `self.data[i]` (unchecked index) with the guarded
`self.data[i + 1]` (zero when out of range). -/
def splitLoop (d : List Nat) (off : Nat) : Nat → Nat → Option (List Nat)
  | _, 0 => some []
  | i, k + 1 => do
    let cur ← d[i]?
    let nxt := d.getD (i + 1) 0
    let nb := if off = 0 then nxt else (cur >>> off) ||| ((nxt <<< (8 - off)) % 256)
    let rest ← splitLoop d off (i + 1) k
    pure (nb :: rest)

/-- `TydiBinary::split` from `src/binary.rs`.  `len2 = self.len - len1`
underflows for `len1 > self.len`, and `full_bytes1 - 1` underflows when
`len1` is byte-aligned with `full_bytes1 = 0` (in particular for
`len1 = 0`). -/
def TydiBinary.split (x : TydiBinary) (len1 : Nat) : Option (TydiBinary × TydiBinary) := do
  if x.len < len1 then none
  else
    let len2 := x.len - len1
    let fullBytes1 := len1 / 8
    let bitOffset := len1 % 8
    let head ← readBytes x.data 0 fullBytes1
    let data1 ← if bitOffset > 0 then do
        let b ← x.data[fullBytes1]?
        pure (head ++ [b &&& (255 >>> (8 - bitOffset))])
      else
        pure head
    let bin1 ← TydiBinary.mk? data1 len1
    let fullBytes2 := len2 / 8
    let remBits2 := len2 % 8
    let bytesToAdd := fullBytes2 + if remBits2 > 0 then 1 else 0
    let startIndex ← if bitOffset > 0 then pure fullBytes1
      else if fullBytes1 = 0 then none
      else pure (fullBytes1 - 1)
    let data2 ← splitLoop x.data bitOffset startIndex bytesToAdd
    let bin2 ← TydiBinary.mk? data2 len2
    pure (bin1, bin2)

/-- `impl From<bool> for TydiBinary` from `src/binary.rs`. -/
def boolToTydiBinary (b : Bool) : TydiBinary := ⟨[if b then 1 else 0], 1⟩

/-- `impl From<Vec<bool>> for TydiBinary` from `src/binary.rs`: the booleans
are packed into bytes in chunks of 8, bit `i` of a byte holding chunk
element `i`, with `len` the number of booleans. -/
def packBools (l : List Bool) : TydiBinary := ⟨ofBits l, l.length⟩

/-- The UTF-8 byte sequence of a character, as produced by
`value.to_string().as_bytes()` in the source. -/
def charUtf8 (c : Char) : List Nat :=
  let n := c.toNat
  if n < 0x80 then [n]
  else if n < 0x800 then
    [0xC0 ||| (n >>> 6), 0x80 ||| (n &&& 0x3F)]
  else if n < 0x10000 then
    [0xE0 ||| (n >>> 12), 0x80 ||| ((n >>> 6) &&& 0x3F), 0x80 ||| (n &&& 0x3F)]
  else
    [0xF0 ||| (n >>> 18), 0x80 ||| ((n >>> 12) &&& 0x3F),
      0x80 ||| ((n >>> 6) &&& 0x3F), 0x80 ||| (n &&& 0x3F)]

/-- `impl From<char> for TydiBinary` from `src/binary.rs`: the UTF-8 bytes of
the character with a hard-coded `len: 8 * 4`. -/
def charToTydiBinary (c : Char) : TydiBinary := ⟨charUtf8 c, 8 * 4⟩

/-- `impl From<$t> for TydiBinary` for the fixed-width primitives: the native
byte representation with `len = 8 * size_of::<$t>()`, abstracted over the
byte list produced by `to_ne_bytes`. -/
def fixedWidthToTydiBinary (bytes : List Nat) : TydiBinary := ⟨bytes, 8 * bytes.length⟩

/-! ## Bit-level semantics of `TydiBinary`

Bit `k` of a buffer lives at bit `k % 8` of byte `k / 8` (LSB-first), per the
data-model section of the spec and the shift directions of `src/binary.rs`.
`Normal` states that a buffer is in the canonical form the constructors
produce: exactly `ceil(len / 8)` bytes, each below 256, with every bit beyond
`len` zero. -/

def TydiBinary.bit (x : TydiBinary) (k : Nat) : Bool :=
  (x.data.getD (k / 8) 0).testBit (k % 8)

def toBits (x : TydiBinary) : List Bool := (List.range x.len).map x.bit

def mkBits (l : List Bool) : TydiBinary := ⟨ofBits l, l.length⟩

abbrev Normal (x : TydiBinary) : Prop :=
  x.data.length = (x.len + 7) / 8 ∧ (∀ b ∈ x.data, b < 256) ∧
    ∀ k < 8 * x.data.length, x.len ≤ k → x.bit k = false

theorem bit_mkBits (l : List Bool) (k : Nat) : (mkBits l).bit k = l.getD k false := by
  simp only [mkBits, TydiBinary.bit]
  exact getD_ofBits_testBit l k

theorem length_toBits (x : TydiBinary) : (toBits x).length = x.len := by
  simp [toBits]

theorem getD_toBits (x : TydiBinary) (k : Nat) :
    (toBits x).getD k false = if k < x.len then x.bit k else false := by
  rw [List.getD_eq_getElem?_getD]
  by_cases h : k < x.len
  · rw [if_pos h]
    simp [toBits, List.getElem?_map, List.getElem?_range, h]
  · rw [if_neg h, List.getElem?_eq_none (by simp [length_toBits]; omega)]
    rfl

theorem bit_eq_false_of_ge (x : TydiBinary) (hx : Normal x) (k : Nat)
    (hk : x.len ≤ k) : x.bit k = false := by
  by_cases h : k < 8 * x.data.length
  · exact hx.2.2 k h hk
  · have : x.data.length ≤ k / 8 := by omega
    simp only [TydiBinary.bit]
    rw [List.getD_eq_getElem?_getD, List.getElem?_eq_none this]
    exact Nat.zero_testBit _

theorem toBits_mkBits (l : List Bool) : toBits (mkBits l) = l := by
  apply List.ext_getElem
  · simp [toBits, mkBits]
  · intro i h1 h2
    simp only [toBits, mkBits, List.getElem_map, List.getElem_range]
    have hb := bit_mkBits l i
    simp only [mkBits] at hb
    rw [hb, List.getD_eq_getElem?_getD, List.getElem?_eq_getElem h2]
    rfl

theorem normal_mkBits (l : List Bool) : Normal (mkBits l) := by
  refine ⟨by simp [mkBits, length_ofBits], fun b hb => mem_ofBits_lt l b hb, ?_⟩
  intro k _ hk
  rw [bit_mkBits, List.getD_eq_getElem?_getD,
    List.getElem?_eq_none (by simpa [mkBits] using hk)]
  rfl

theorem byte_testBit_hi (b t : Nat) (hb : b < 256) (ht : 8 ≤ t) :
    b.testBit t = false :=
  Nat.testBit_lt_two_pow (lt_of_lt_of_le hb (by
    calc (256 : Nat) = 2 ^ 8 := by norm_num
      _ ≤ 2 ^ t := Nat.pow_le_pow_right (by norm_num) ht))

theorem mkBits_toBits (x : TydiBinary) (hx : Normal x) : mkBits (toBits x) = x := by
  obtain ⟨hlen, hbytes, hhi⟩ := hx
  have hdata : ofBits (toBits x) = x.data := by
    apply List.ext_getElem?
    intro j
    rw [getElem?_ofBits]
    by_cases hj : j < x.data.length
    · rw [if_pos (by rw [length_toBits]; omega), List.getElem?_eq_getElem hj]
      congr 1
      apply bitsToByte_eq_of_testBit
      intro t
      by_cases ht : t < 8
      · rw [List.getD_eq_getElem?_getD, List.getElem?_take, if_pos ht, List.getElem?_drop]
        have h1 : ((toBits x)[8 * j + t]?).getD false = (toBits x).getD (8 * j + t) false := by
          rw [List.getD_eq_getElem?_getD]
        rw [h1, getD_toBits]
        by_cases hk : 8 * j + t < x.len
        · rw [if_pos hk]
          simp only [TydiBinary.bit]
          have hq : (8 * j + t) / 8 = j := by omega
          have hr : (8 * j + t) % 8 = t := by omega
          rw [hq, hr, List.getD_eq_getElem?_getD, List.getElem?_eq_getElem hj]
          rfl
        · rw [if_neg hk]
          have := bit_eq_false_of_ge x ⟨hlen, hbytes, hhi⟩ (8 * j + t) (by omega)
          simp only [TydiBinary.bit] at this
          have hq : (8 * j + t) / 8 = j := by omega
          have hr : (8 * j + t) % 8 = t := by omega
          rw [hq, hr, List.getD_eq_getElem?_getD, List.getElem?_eq_getElem hj] at this
          simp only [Option.getD_some] at this
          exact this.symm
      · rw [List.getD_eq_getElem?_getD, List.getElem?_eq_none
          (by rw [List.length_take]; omega)]
        exact (byte_testBit_hi _ t (hbytes _ (List.getElem_mem hj)) (by omega)).symm
    · rw [if_neg (by rw [length_toBits]; omega), List.getElem?_eq_none (by omega)]
  simp only [mkBits, hdata, length_toBits]

theorem ofBits_toBits (x : TydiBinary) (hx : Normal x) : ofBits (toBits x) = x.data := by
  have h := mkBits_toBits x hx
  simpa [mkBits] using congrArg TydiBinary.data h

theorem getD_range_map_testBit (p n t : Nat) (hp : p < 2 ^ n) :
    ((List.range n).map p.testBit).getD t false = p.testBit t := by
  rw [List.getD_eq_getElem?_getD, List.getElem?_map]
  by_cases h : t < n
  · rw [List.getElem?_range h]
    rfl
  · rw [List.getElem?_eq_none (by simpa using Nat.le_of_not_lt h)]
    exact (Nat.testBit_lt_two_pow (lt_of_lt_of_le hp
      (Nat.pow_le_pow_right (by norm_num) (Nat.le_of_not_lt h)))).symm

theorem bitsToByte_range_testBit (p n : Nat) (hp : p < 2 ^ n) :
    bitsToByte ((List.range n).map p.testBit) = p :=
  bitsToByte_eq_of_testBit _ _ fun t => getD_range_map_testBit p n t hp

theorem ofBits_small (l : List Bool) (h1 : l ≠ []) (h8 : l.length ≤ 8) :
    ofBits l = [bitsToByte l] := by
  rw [ofBits_cons_chunk l h1, List.take_of_length_le h8, List.drop_eq_nil_of_le h8]
  rfl

theorem getElem?_toBits (b : TydiBinary) (k : Nat) :
    (toBits b)[k]? = if k < b.len then some (b.bit k) else none := by
  simp only [toBits, List.getElem?_map]
  by_cases h : k < b.len
  · rw [List.getElem?_range h, if_pos h]
    rfl
  · rw [if_neg h, List.getElem?_eq_none (by simpa using Nat.le_of_not_lt h)]
    rfl

theorem getD_toBits_drop (b : TydiBinary) (n m : Nat) :
    ((toBits b).drop n).getD m false = if n + m < b.len then b.bit (n + m) else false := by
  rw [List.getD_eq_getElem?_getD, List.getElem?_drop]
  have h1 : ((toBits b)[n + m]?).getD false = (toBits b).getD (n + m) false := by
    rw [List.getD_eq_getElem?_getD]
  rw [h1, getD_toBits]

theorem bit_byte (b : TydiBinary) (i u : Nat) (hu : u < 8) :
    b.bit (8 * i + u) = (b.data.getD i 0).testBit u := by
  simp only [TydiBinary.bit]
  have hq : (8 * i + u) / 8 = i := by omega
  have hr : (8 * i + u) % 8 = u := by omega
  rw [hq, hr]

theorem normal_byte_hi (b : TydiBinary) (hb : Normal b) (i u : Nat)
    (hu : u < 8) (hi : i < b.data.length) (hk : b.len ≤ 8 * i + u) :
    (b.data.getD i 0).testBit u = false := by
  rw [← bit_byte b i u hu]
  exact hb.2.2 _ (by omega) hk

theorem getD_mem_or (d : List Nat) (i : Nat) : d.getD i 0 ∈ d ∨ d.getD i 0 = 0 := by
  by_cases h : i < d.length
  · left
    rw [List.getD_eq_getElem?_getD, List.getElem?_eq_getElem h]
    exact List.getElem_mem h
  · right
    rw [List.getD_eq_getElem?_getD, List.getElem?_eq_none (by omega)]
    rfl

theorem normal_getD_lt (b : TydiBinary) (hb : Normal b) (i : Nat) :
    b.data.getD i 0 < 256 := by
  rcases getD_mem_or b.data i with h | h
  · exact hb.2.1 _ h
  · omega

/-- The byte that `concatenate` assembles from the partial byte `p` and the
next source byte: its low `stb` bits are `p`, its remaining high bits are the
low `8 - stb` bits of the source byte. -/
theorem concat_byte_eq (b : TydiBinary) (hb : Normal b) (stb i p : Nat)
    (hstb1 : 1 ≤ stb) (hstb7 : stb < 8) (hp : p < 2 ^ stb) (hi : i < b.data.length) :
    bitsToByte ((List.range stb).map p.testBit ++
        ((toBits b).drop (8 * i)).take (8 - stb)) =
      p ||| ((b.data.getD i 0 <<< stb) % 256) := by
  apply bitsToByte_eq_of_testBit
  intro t
  have h256 : (256 : Nat) = 2 ^ 8 := by norm_num
  rw [Nat.testBit_or, h256, Nat.testBit_mod_two_pow, Nat.testBit_shiftLeft]
  by_cases ht : t < stb
  · rw [List.getD_append _ _ _ _ (by simp [ht]), getD_range_map_testBit p stb t hp]
    have hns : ¬ stb ≤ t := by omega
    simp [hns]
  · have hpt : p.testBit t = false :=
      Nat.testBit_lt_two_pow (lt_of_lt_of_le hp
        (Nat.pow_le_pow_right (by norm_num) (by omega)))
    rw [List.getD_append_right _ _ _ _ (by simp; omega)]
    have hlen1 : ((List.range stb).map p.testBit).length = stb := by simp
    rw [hlen1]
    by_cases ht8 : t < 8
    · rw [List.getD_eq_getElem?_getD, List.getElem?_take, if_pos (by omega),
        ← List.getD_eq_getElem?_getD, getD_toBits_drop]
      by_cases hin : 8 * i + (t - stb) < b.len
      · rw [if_pos hin, bit_byte b i (t - stb) (by omega)]
        simp only [hpt, Bool.false_or]
        have d1 : decide (t < 8) = true := by simp [ht8]
        have d2 : decide (t ≥ stb) = true := by simp; omega
        rw [d1, d2]
        simp
      · rw [if_neg hin]
        have hz := normal_byte_hi b hb i (t - stb) (by omega) hi (by omega)
        rw [List.getD_eq_getElem?_getD] at hz
        simp only [hpt, Bool.false_or]
        simp [hz]
    · rw [List.getD_eq_getElem?_getD, List.getElem?_eq_none
        (by rw [List.length_take]; omega)]
      have d1 : decide (t < 8) = false := by simp [ht8]
      rw [d1]
      simp [hpt]

/-- The carry byte produced for the final source byte: the high bits of the
last byte of `b`, which are exactly the remaining bits of the stream. -/
theorem carry_byte_eq (b : TydiBinary) (hb : Normal b) (stb i : Nat)
    (hstb1 : 1 ≤ stb) (hstb7 : stb < 8) (hi : i < b.data.length)
    (hup : b.len ≤ 8 * (i + 1)) :
    bitsToByte (((toBits b).drop (8 * i)).drop (8 - stb)) =
      b.data.getD i 0 >>> (8 - stb) := by
  apply bitsToByte_eq_of_testBit
  intro t
  rw [List.drop_drop]
  have hadd : 8 * i + (8 - stb) + t = 8 * i + ((8 - stb) + t) := by omega
  rw [getD_toBits_drop, Nat.testBit_shiftRight, hadd]
  by_cases hin : 8 * i + ((8 - stb) + t) < b.len
  · rw [if_pos hin, bit_byte b i _ (by omega)]
  · rw [if_neg hin]
    by_cases ht8 : (8 - stb) + t < 8
    · exact (normal_byte_hi b hb i _ ht8 hi (by omega)).symm
    · exact (byte_testBit_hi _ _ (normal_getD_lt b hb i) (by omega)).symm

/-- After consuming the combined byte, the remaining bits are the carry's low
bits followed by the rest of `b`'s bit stream. -/
theorem drop_ts_toBits (b : TydiBinary) (hb : Normal b) (stb i : Nat)
    (hstb1 : 1 ≤ stb) (hstb7 : stb < 8) (hlo : 8 * (i + 1) ≤ b.len)
    (hi : i < b.data.length) :
    ((toBits b).drop (8 * i)).drop (8 - stb) =
      (List.range stb).map (b.data.getD i 0 >>> (8 - stb)).testBit ++
        (toBits b).drop (8 * (i + 1)) := by
  apply List.ext_getElem?
  intro m
  rw [List.drop_drop, List.getElem?_drop, getElem?_toBits, List.getElem?_append]
  have hlen1 : ((List.range stb).map (b.data.getD i 0 >>> (8 - stb)).testBit).length = stb := by
    simp
  rw [hlen1]
  by_cases hm : m < stb
  · rw [if_pos hm, List.getElem?_map, List.getElem?_range hm]
    rw [if_pos (by omega)]
    have hb1 : b.bit (8 * i + (8 - stb) + m) = (b.data.getD i 0).testBit ((8 - stb) + m) := by
      have : 8 * i + (8 - stb) + m = 8 * i + ((8 - stb) + m) := by omega
      rw [this, bit_byte b i _ (by omega)]
    rw [hb1]
    simp only [Option.map_some', Nat.testBit_shiftRight]
  · rw [if_neg hm, List.getElem?_drop, getElem?_toBits]
    have : 8 * i + (8 - stb) + m = 8 * (i + 1) + (m - stb) := by omega
    rw [this]

theorem range_map_testBit_ne_nil (p n : Nat) (hn : 1 ≤ n) :
    (List.range n).map p.testBit ≠ [] := by
  intro h
  have := congrArg List.length h
  simp at this
  omega

/-- Closed form of the `concatenate` loop: starting from the partial byte `p`
and the source bytes of `b` from index `i` on, the tail of `new_data` packs
`p`'s `stb` bits followed by the remaining bits of `b`. -/
theorem concatGo_eq (b : TydiBinary) (hb : Normal b) (stb : Nat)
    (hstb1 : 1 ≤ stb) (hstb7 : stb < 8) :
    ∀ (bs : List Nat) (i p : Nat), bs = b.data.drop i → p < 2 ^ stb →
      concatGo stb b.data.length b.len (8 - stb) i p bs =
        some (ofBits ((List.range stb).map p.testBit ++ (toBits b).drop (8 * i))) := by
  intro bs
  induction bs with
  | nil =>
    intro i p hbs hp
    have hball : b.data.length ≤ i := by
      by_contra hlt
      push_neg at hlt
      have hlen := congrArg List.length hbs
      simp only [List.length_nil, List.length_drop] at hlen
      omega
    have hdrop : (toBits b).drop (8 * i) = [] := by
      apply List.drop_eq_nil_of_le
      rw [length_toBits]
      have h1 := hb.1
      omega
    rw [hdrop, List.append_nil, concatGo]
    rw [ofBits_small _ (range_map_testBit_ne_nil p stb hstb1) (by simp; omega),
      bitsToByte_range_testBit p stb hp]
  | cons ob rest ih =>
    intro i p hbs hp
    have hlt : i < b.data.length := by
      by_contra hge
      push_neg at hge
      rw [List.drop_eq_nil_of_le hge] at hbs
      exact (List.cons_ne_nil ob rest) hbs
    have hob : b.data.getD i 0 = ob := by
      have h0 : (b.data.drop i)[0]? = some ob := by
        rw [← hbs]
        exact List.getElem?_cons_zero
      rw [List.getElem?_drop] at h0
      rw [List.getD_eq_getElem?_getD]
      simp only [Nat.add_zero] at h0
      rw [h0]
      rfl
    have hrest : rest = b.data.drop (i + 1) := by
      have htl : (b.data.drop i).tail = b.data.drop (i + 1) := by
        rw [← List.drop_drop, List.drop_one]
      rw [← hbs] at htl
      simpa using htl
    have hob256 : ob < 256 := by
      rw [← hob]
      exact normal_getD_lt b hb i
    have hts : 8 - stb + stb = 8 := by omega
    have hpow : (2 : Nat) ^ (8 - stb) * 2 ^ stb = 256 := by
      rw [← pow_add]
      have : 8 - stb + stb = 8 := by omega
      rw [this]
      norm_num
    have hp' : ob >>> (8 - stb) < 2 ^ stb := by
      rw [Nat.shiftRight_eq_div_pow]
      exact Nat.div_lt_of_lt_mul (by rw [hpow]; exact hob256)
    have hpbne : ((List.range stb).map p.testBit ++ (toBits b).drop (8 * i)) ≠ [] := by
      intro h
      have := congrArg List.length h
      simp at this
      omega
    have htake8 : ((List.range stb).map p.testBit ++ (toBits b).drop (8 * i)).take 8 =
        (List.range stb).map p.testBit ++ ((toBits b).drop (8 * i)).take (8 - stb) := by
      rw [List.take_append_eq_append_take, List.take_of_length_le (by simp; omega)]
      congr 2
      simp
    have hdrop8 : ((List.range stb).map p.testBit ++ (toBits b).drop (8 * i)).drop 8 =
        ((toBits b).drop (8 * i)).drop (8 - stb) := by
      rw [List.drop_append_eq_append_drop, List.drop_eq_nil_of_le (by simp; omega),
        List.nil_append]
      congr 1
      simp
    rw [concatGo]
    by_cases hA : i < b.data.length - 1
    · rw [if_pos hA]
      have hblen : 8 * (i + 1) < b.len := by
        have h1 := hb.1
        omega
      rw [ih (i + 1) (ob >>> (8 - stb)) hrest hp', Option.map_some']
      rw [ofBits_cons_chunk _ hpbne, htake8, hdrop8,
        concat_byte_eq b hb stb i p hstb1 hstb7 hp hlt, hob,
        drop_ts_toBits b hb stb i hstb1 hstb7 (by omega) hlt, hob]
    · rw [if_neg hA]
      have hieq : i = b.data.length - 1 := by omega
      have hr1 : 8 * i < b.len := by
        have h1 := hb.1
        omega
      have hr2 : b.len ≤ 8 * (i + 1) := by
        have h1 := hb.1
        omega
      rw [if_neg (by omega)]
      have hrest0 : rest = [] := by
        rw [hrest]
        apply List.drop_eq_nil_of_le
        omega
      subst hrest0
      by_cases hpush : b.len - i * 8 > 8 - stb
      · rw [if_pos hpush, concatGo, Option.map_some']
        rw [ofBits_cons_chunk _ hpbne, htake8, hdrop8,
          concat_byte_eq b hb stb i p hstb1 hstb7 hp hlt, hob]
        have hlast : ((toBits b).drop (8 * i)).drop (8 - stb) ≠ [] := by
          intro h
          have := congrArg List.length h
          simp only [List.length_drop, List.length_nil, length_toBits] at this
          omega
        rw [ofBits_small _ hlast (by simp [length_toBits]; omega),
          carry_byte_eq b hb stb i hstb1 hstb7 hlt hr2, hob]
      · rw [if_neg hpush, concatGo]
        have htk : ((toBits b).drop (8 * i)).take (8 - stb) = (toBits b).drop (8 * i) := by
          apply List.take_of_length_le
          simp only [List.length_drop, length_toBits]
          omega
        rw [ofBits_small _ hpbne (by simp [length_toBits]; omega)]
        rw [← htk, concat_byte_eq b hb stb i p hstb1 hstb7 hp hlt, hob]

theorem ofBits_append_aligned (l1 l2 : List Bool) (h8 : 8 ∣ l1.length) :
    ofBits (l1 ++ l2) = ofBits l1 ++ ofBits l2 := by
  obtain ⟨q, hq⟩ := h8
  apply List.ext_getElem?
  intro j
  rw [getElem?_ofBits, List.getElem?_append, length_ofBits, getElem?_ofBits,
    getElem?_ofBits, List.length_append]
  by_cases hj : j < (l1.length + 7) / 8
  · rw [if_pos (by omega), if_pos hj, if_pos (by omega)]
    congr 2
    rw [List.drop_append_eq_append_drop]
    have hz : 8 * j - l1.length = 0 := by omega
    rw [hz, List.drop_zero, List.take_append_eq_append_take]
    have h0 : 8 - (l1.drop (8 * j)).length = 0 := by
      rw [List.length_drop]
      omega
    rw [h0, List.take_zero, List.append_nil]
  · rw [if_neg hj]
    by_cases hj2 : j - (l1.length + 7) / 8 < (l2.length + 7) / 8
    · rw [if_pos (by omega), if_pos hj2]
      congr 2
      rw [List.drop_append_eq_append_drop, List.drop_eq_nil_of_le (by omega),
        List.nil_append]
      congr 2
      omega
    · rw [if_neg (by omega), if_neg hj2]

/-- `concatenate` on normalized buffers succeeds and packs exactly the bits of
`a` followed by the bits of `b`. -/
theorem concatenate_eq (a b : TydiBinary) (ha : Normal a) (hb : Normal b) :
    a.concatenate b = some (mkBits (toBits a ++ toBits b)) := by
  unfold TydiBinary.concatenate
  by_cases h0 : a.len = 0
  · rw [if_pos h0]
    have hta : toBits a = [] := by simp [toBits, h0]
    rw [hta, List.nil_append, mkBits_toBits b hb]
  · rw [if_neg h0]
    by_cases hal : a.len % 8 = 0
    · rw [if_pos hal]
      have hcond : a.len + b.len ≤ (a.data ++ b.data).length * 8 := by
        have h1 := ha.1
        have h2 := hb.1
        simp only [List.length_append]
        omega
      rw [TydiBinary.mk?, if_pos hcond]
      refine congrArg some ?_
      have hdiv : 8 ∣ (toBits a).length := by
        rw [length_toBits]
        omega
      have h1 : ofBits (toBits a ++ toBits b) = a.data ++ b.data := by
        rw [ofBits_append_aligned _ _ hdiv, ofBits_toBits a ha, ofBits_toBits b hb]
      have h2 : (toBits a ++ toBits b).length = a.len + b.len := by
        simp [length_toBits]
      simp [mkBits, h1, h2]
    · rw [if_neg hal]
      have hstb1 : 1 ≤ a.len % 8 := by omega
      have hstb7 : a.len % 8 < 8 := Nat.mod_lt _ (by norm_num)
      have hane : a.data ≠ [] := by
        have h1 := ha.1
        intro h
        rw [h] at h1
        simp only [List.length_nil] at h1
        omega
      cases hL : a.data.getLast? with
      | none =>
        rw [List.getLast?_eq_none_iff] at hL
        exact absurd hL hane
      | some lastByte =>
        have hK : a.data.length - 1 = a.len / 8 := by
          have h1 := ha.1
          omega
        have hlast_getD : a.data.getD (a.data.length - 1) 0 = lastByte := by
          rw [List.getD_eq_getElem?_getD, ← List.getLast?_eq_getElem?, hL]
          rfl
        have hlast256 : lastByte < 256 := by
          rw [← hlast_getD]
          exact normal_getD_lt a ha _
        have hlenpos : 0 < a.data.length := List.length_pos.mpr hane
        have hhigh : ∀ u, a.len % 8 ≤ u → lastByte.testBit u = false := by
          intro u hu
          by_cases hu8 : u < 8
          · rw [← hlast_getD, hK]
            apply normal_byte_hi a ha (a.len / 8) u hu8 (by omega)
            omega
          · exact byte_testBit_hi _ _ hlast256 (by omega)
        have hplt : lastByte < 2 ^ (a.len % 8) := by
          have hmod : lastByte % 2 ^ (a.len % 8) = lastByte := by
            apply Nat.eq_of_testBit_eq
            intro t
            rw [Nat.testBit_mod_two_pow]
            by_cases ht : t < a.len % 8
            · simp [ht]
            · simp [ht, hhigh t (by omega)]
          rw [← hmod]
          exact Nat.mod_lt _ (pow_pos (by norm_num) _)
        have hgo := concatGo_eq b hb (a.len % 8) hstb1 hstb7 b.data 0 lastByte
          (by rw [List.drop_zero]) hplt
        rw [Nat.mul_zero, List.drop_zero] at hgo
        dsimp only
        rw [hgo]
        simp only [Option.bind_eq_bind, Option.some_bind]
        -- the packed tail and its length
        have htail_len : (ofBits ((List.range (a.len % 8)).map lastByte.testBit ++
            toBits b)).length = (a.len % 8 + b.len + 7) / 8 := by
          rw [length_ofBits]
          simp [length_toBits]
        have hcond : a.len + b.len ≤ (a.data.dropLast ++
            ofBits ((List.range (a.len % 8)).map lastByte.testBit ++ toBits b)).length * 8 := by
          rw [List.length_append, List.length_dropLast, htail_len]
          have h1 := ha.1
          omega
        rw [TydiBinary.mk?, if_pos hcond]
        refine congrArg some ?_
        -- decompose the bit stream of `a` at the last full byte boundary
        have htake_len : ((toBits a).take (8 * (a.len / 8))).length = 8 * (a.len / 8) := by
          rw [List.length_take, length_toBits]
          have := Nat.mod_lt a.len (show 0 < 8 by norm_num)
          omega
        have hdiv : 8 ∣ ((toBits a).take (8 * (a.len / 8))).length :=
          ⟨a.len / 8, by rw [htake_len]⟩
        have hdataeq : a.data = ofBits ((toBits a).take (8 * (a.len / 8))) ++
            ofBits ((toBits a).drop (8 * (a.len / 8))) := by
          rw [← ofBits_append_aligned _ _ hdiv, List.take_append_drop, ofBits_toBits a ha]
        have hdrop_eq : (toBits a).drop (8 * (a.len / 8)) =
            (List.range (a.len % 8)).map lastByte.testBit := by
          apply List.ext_getElem?
          intro m
          rw [List.getElem?_drop, getElem?_toBits, List.getElem?_map]
          by_cases hm : m < a.len % 8
          · rw [List.getElem?_range hm, if_pos (by omega)]
            rw [bit_byte a (a.len / 8) m (by omega), ← hK, hlast_getD]
            rfl
          · rw [if_neg (by omega), List.getElem?_eq_none (by simpa using Nat.le_of_not_lt hm)]
            rfl
        have hofdrop : ofBits ((toBits a).drop (8 * (a.len / 8))) = [lastByte] := by
          rw [hdrop_eq, ofBits_small _ (range_map_testBit_ne_nil _ _ hstb1)
            (by simp; omega), bitsToByte_range_testBit _ _ hplt]
        have hXdrop : a.data.dropLast = ofBits ((toBits a).take (8 * (a.len / 8))) := by
          conv_lhs => rw [hdataeq, hofdrop]
          exact List.dropLast_concat ..
        have hfinal : ofBits (toBits a ++ toBits b) = a.data.dropLast ++
            ofBits ((List.range (a.len % 8)).map lastByte.testBit ++ toBits b) := by
          conv_lhs => rw [← List.take_append_drop (8 * (a.len / 8)) (toBits a)]
          rw [List.append_assoc, ofBits_append_aligned _ _ hdiv, hdrop_eq, hXdrop]
        have h2 : (toBits a ++ toBits b).length = a.len + b.len := by
          simp [length_toBits]
        simp [mkBits, hfinal, h2]

theorem getD_take (m : List Bool) (n k : Nat) :
    (m.take n).getD k false = if k < n then m.getD k false else false := by
  rw [List.getD_eq_getElem?_getD, List.getElem?_take]
  by_cases h : k < n
  · rw [if_pos h, if_pos h, List.getD_eq_getElem?_getD]
  · rw [if_neg h, if_neg h]
    rfl

theorem getD_take8_drop (m : List Bool) (j t : Nat) :
    ((m.drop (8 * j)).take 8).getD t false =
      if t < 8 then m.getD (8 * j + t) false else false := by
  rw [List.getD_eq_getElem?_getD, List.getElem?_take]
  by_cases h : t < 8
  · rw [if_pos h, if_pos h, List.getElem?_drop, List.getD_eq_getElem?_getD]
  · rw [if_neg h, if_neg h]
    rfl

theorem mask_shift_eq (off : Nat) (h1 : 1 ≤ off) (h7 : off < 8) :
    255 >>> (8 - off) = 2 ^ off - 1 := by
  interval_cases off <;> decide

theorem readBytes_eq (d : List Nat) : ∀ (k s : Nat), s + k ≤ d.length →
    readBytes d s k = some ((d.drop s).take k) := by
  intro k
  induction k with
  | zero =>
    intro s _
    simp [readBytes]
  | succ k ih =>
    intro s h
    rw [readBytes, List.getElem?_eq_getElem (by omega), ih (s + 1) (by omega)]
    simp only [Option.bind_eq_bind, Option.some_bind, Option.pure_def]
    refine congrArg some ?_
    conv_rhs => rw [List.drop_eq_getElem_cons (show s < d.length by omega)]
    rw [List.take_succ_cons]

theorem splitLoop_eq (d : List Nat) (off : Nat) : ∀ (k i : Nat), i + k ≤ d.length →
    splitLoop d off i k = some ((List.range k).map fun j =>
      if off = 0 then d.getD (i + j + 1) 0
      else (d.getD (i + j) 0 >>> off) ||| ((d.getD (i + j + 1) 0 <<< (8 - off)) % 256)) := by
  intro k
  induction k with
  | zero =>
    intro i _
    simp [splitLoop]
  | succ k ih =>
    intro i h
    rw [splitLoop, List.getElem?_eq_getElem (by omega), ih (i + 1) (by omega)]
    simp only [Option.bind_eq_bind, Option.some_bind, Option.pure_def]
    refine congrArg some ?_
    rw [List.range_succ_eq_map, List.map_cons, List.map_map]
    have hget : d.getD (i + 0) 0 = d[i] := by
      have : i + 0 = i := by omega
      rw [this, List.getD_eq_getElem?_getD, List.getElem?_eq_getElem (by omega)]
      rfl
    congr 1
    · rw [hget]
    · apply List.map_congr_left
      intro j _
      simp only [Function.comp_apply]
      have e1 : i + 1 + j = i + (j + 1) := by omega
      rw [e1]

theorem getD_testBit_false_of_ge (x : TydiBinary) (hx : Normal x) (i u : Nat)
    (hu : u < 8) (hk : x.len ≤ 8 * i + u) :
    (x.data.getD i 0).testBit u = false := by
  by_cases hi : i < x.data.length
  · exact normal_byte_hi x hx i u hu hi hk
  · rw [List.getD_eq_default _ _ (by omega)]
    exact Nat.zero_testBit u

/-- A full byte of `split`'s first part is the corresponding source byte. -/
theorem split_body_byte (x : TydiBinary) (hx : Normal x) (n j : Nat)
    (hn : n ≤ x.len) (hj : 8 * j + 8 ≤ n) :
    bitsToByte ((((toBits x).take n).drop (8 * j)).take 8) = x.data.getD j 0 := by
  apply bitsToByte_eq_of_testBit
  intro t
  rw [getD_take8_drop]
  by_cases ht : t < 8
  · rw [if_pos ht, getD_take, if_pos (by omega), getD_toBits, if_pos (by omega),
      bit_byte x j t ht]
  · rw [if_neg ht]
    exact (byte_testBit_hi _ _ (normal_getD_lt x hx j) (by omega)).symm

/-- The partial final byte of `split`'s first part is the source byte masked
to the low `n % 8` bits. -/
theorem split_mask_byte (x : TydiBinary) (hx : Normal x) (n : Nat)
    (hn : n ≤ x.len) (hoff : 1 ≤ n % 8) :
    bitsToByte ((((toBits x).take n).drop (8 * (n / 8))).take 8) =
      x.data.getD (n / 8) 0 &&& (255 >>> (8 - n % 8)) := by
  rw [mask_shift_eq (n % 8) hoff (Nat.mod_lt _ (by norm_num))]
  apply bitsToByte_eq_of_testBit
  intro t
  rw [getD_take8_drop, Nat.testBit_and, Nat.testBit_two_pow_sub_one]
  by_cases ht : t < 8
  · rw [if_pos ht, getD_take]
    by_cases htn : 8 * (n / 8) + t < n
    · rw [if_pos htn, getD_toBits, if_pos (by omega), bit_byte x _ t ht]
      have hd : decide (t < n % 8) = true := by simp; omega
      rw [hd, Bool.and_true]
    · rw [if_neg htn]
      have hd : decide (t < n % 8) = false := by simp; omega
      rw [hd, Bool.and_false]
  · rw [if_neg ht]
    have hd : decide (t < n % 8) = false := by simp; omega
    rw [hd, Bool.and_false]

/-- A byte of `split`'s second part, byte-aligned case: the corresponding
whole source byte. -/
theorem split_tail_byte_aligned (x : TydiBinary) (hx : Normal x) (n j : Nat)
    (hal : n % 8 = 0) (hn : n ≤ x.len) :
    bitsToByte ((((toBits x).drop n).drop (8 * j)).take 8) =
      x.data.getD (n / 8 + j) 0 := by
  apply bitsToByte_eq_of_testBit
  intro t
  rw [getD_take8_drop]
  by_cases ht : t < 8
  · rw [if_pos ht, getD_toBits_drop]
    have hpos : n + (8 * j + t) = 8 * (n / 8 + j) + t := by omega
    by_cases hin : n + (8 * j + t) < x.len
    · rw [if_pos hin, hpos, bit_byte x _ t ht]
    · rw [if_neg hin]
      exact (getD_testBit_false_of_ge x hx _ t ht (by omega)).symm
  · rw [if_neg ht]
    exact (byte_testBit_hi _ _ (normal_getD_lt x hx _) (by omega)).symm

/-- A byte of `split`'s second part, unaligned case: the byte-reassembly
shift register combining two adjacent source bytes. -/
theorem split_tail_byte_off (x : TydiBinary) (hx : Normal x) (n j : Nat)
    (hoff : 1 ≤ n % 8) (hn : n ≤ x.len) :
    bitsToByte ((((toBits x).drop n).drop (8 * j)).take 8) =
      (x.data.getD (n / 8 + j) 0 >>> (n % 8)) |||
        ((x.data.getD (n / 8 + j + 1) 0 <<< (8 - n % 8)) % 256) := by
  have hoff8 : n % 8 < 8 := Nat.mod_lt _ (by norm_num)
  apply bitsToByte_eq_of_testBit
  intro t
  have h256 : (256 : Nat) = 2 ^ 8 := by norm_num
  rw [getD_take8_drop, Nat.testBit_or, Nat.testBit_shiftRight, h256,
    Nat.testBit_mod_two_pow, Nat.testBit_shiftLeft]
  by_cases ht : t < 8
  · rw [if_pos ht, getD_toBits_drop]
    have hd8 : decide (t < 8) = true := by simp [ht]
    rw [hd8, Bool.true_and]
    by_cases hcase : n % 8 + t < 8
    · have hd2 : decide (t ≥ 8 - n % 8) = false := by simp; omega
      rw [hd2, Bool.false_and, Bool.or_false]
      have hpos : n + (8 * j + t) = 8 * (n / 8 + j) + (n % 8 + t) := by omega
      by_cases hin : n + (8 * j + t) < x.len
      · rw [if_pos hin, hpos, bit_byte x _ _ hcase]
      · rw [if_neg hin]
        exact (getD_testBit_false_of_ge x hx _ _ hcase (by omega)).symm
    · have hd2 : decide (t ≥ 8 - n % 8) = true := by simp; omega
      rw [hd2, Bool.true_and]
      have hhi : (x.data.getD (n / 8 + j) 0).testBit (n % 8 + t) = false :=
        byte_testBit_hi _ _ (normal_getD_lt x hx _) (by omega)
      rw [hhi, Bool.false_or]
      have hsub : t - (8 - n % 8) = n % 8 + t - 8 := by omega
      have hpos : n + (8 * j + t) = 8 * (n / 8 + j + 1) + (n % 8 + t - 8) := by omega
      by_cases hin : n + (8 * j + t) < x.len
      · rw [if_pos hin, hpos, bit_byte x _ _ (by omega), hsub]
      · rw [if_neg hin, hsub]
        exact (getD_testBit_false_of_ge x hx _ _ (by omega) (by omega)).symm
  · rw [if_neg ht]
    have hd8 : decide (t < 8) = false := by simp [ht]
    rw [hd8, Bool.false_and, Bool.or_false]
    exact (byte_testBit_hi _ _ (normal_getD_lt x hx _) (by omega)).symm

/-- `split` on a normalized buffer at an offset `1 ≤ n ≤ len` succeeds and
returns the buffers packing the first `n` bits and the remaining bits. -/
theorem split_eq (x : TydiBinary) (hx : Normal x) (n : Nat)
    (h1 : 1 ≤ n) (h2 : n ≤ x.len) :
    x.split n = some (mkBits ((toBits x).take n), mkBits ((toBits x).drop n)) := by
  have hdlen := hx.1
  have hmk1 : mkBits ((toBits x).take n) =
      ⟨ofBits ((toBits x).take n), n⟩ := by
    simp only [mkBits, List.length_take, length_toBits]
    congr 1
    omega
  have hmk2 : mkBits ((toBits x).drop n) =
      ⟨ofBits ((toBits x).drop n), x.len - n⟩ := by
    simp only [mkBits, List.length_drop, length_toBits]
  unfold TydiBinary.split
  rw [if_neg (by omega)]
  dsimp only
  rw [readBytes_eq x.data (n / 8) 0 (by omega), List.drop_zero]
  simp only [Option.bind_eq_bind, Option.some_bind]
  by_cases hoff : n % 8 > 0
  · have hidx : n / 8 < x.data.length := by omega
    rw [if_pos hoff, List.getElem?_eq_getElem hidx]
    simp only [Option.bind_eq_bind, Option.some_bind, Option.pure_def]
    have hd1len : (x.data.take (n / 8) ++
        [x.data[n / 8] &&& (255 >>> (8 - n % 8))]).length = n / 8 + 1 := by
      simp only [List.length_append, List.length_take, List.length_cons, List.length_nil]
      omega
    rw [TydiBinary.mk?, if_pos (by rw [hd1len]; omega)]
    simp only [Option.bind_eq_bind, Option.pure_def, Option.some_bind]
    rw [if_pos hoff]
    rw [splitLoop_eq x.data (n % 8)
      ((x.len - n) / 8 + if (x.len - n) % 8 > 0 then 1 else 0) (n / 8) (by split <;> omega)]
    simp only [Option.bind_eq_bind, Option.pure_def, Option.some_bind]
    have hbtalen : ((List.range ((x.len - n) / 8 +
        if (x.len - n) % 8 > 0 then 1 else 0)).map fun j =>
          if n % 8 = 0 then x.data.getD (n / 8 + j + 1) 0
          else (x.data.getD (n / 8 + j) 0 >>> (n % 8)) |||
            ((x.data.getD (n / 8 + j + 1) 0 <<< (8 - n % 8)) % 256)).length =
        (x.len - n) / 8 + if (x.len - n) % 8 > 0 then 1 else 0 := by
      simp
    rw [TydiBinary.mk?, if_pos (by rw [hbtalen]; split <;> omega)]
    simp only [Option.bind_eq_bind, Option.pure_def, Option.some_bind]
    refine congrArg some ?_
    have hdata1 : ofBits ((toBits x).take n) =
        x.data.take (n / 8) ++ [x.data[n / 8] &&& (255 >>> (8 - n % 8))] := by
      apply List.ext_getElem?
      intro j
      rw [getElem?_ofBits, List.getElem?_append]
      have hlt : ((toBits x).take n).length = n := by
        rw [List.length_take, length_toBits]
        omega
      rw [hlt, List.length_take]
      have hmin : min (n / 8) x.data.length = n / 8 := by omega
      rw [hmin]
      by_cases hj : j < n / 8
      · rw [if_pos (by omega), if_pos hj, List.getElem?_take, if_pos hj,
          List.getElem?_eq_getElem (by omega)]
        refine congrArg some ?_
        rw [split_body_byte x hx n j h2 (by omega)]
        rw [List.getD_eq_getElem?_getD, List.getElem?_eq_getElem (by omega)]
        rfl
      · by_cases hj2 : j = n / 8
        · subst hj2
          rw [if_pos (by omega), if_neg hj, Nat.sub_self, List.getElem?_cons_zero]
          refine congrArg some ?_
          rw [split_mask_byte x hx n h2 (by omega)]
          rw [List.getD_eq_getElem?_getD, List.getElem?_eq_getElem hidx]
          rfl
        · rw [if_neg (by omega), if_neg hj, List.getElem?_eq_none
            (by simp only [List.length_cons, List.length_nil]; omega)]
    have hdata2 : ((List.range ((x.len - n) / 8 +
        if (x.len - n) % 8 > 0 then 1 else 0)).map fun j =>
          if n % 8 = 0 then x.data.getD (n / 8 + j + 1) 0
          else (x.data.getD (n / 8 + j) 0 >>> (n % 8)) |||
            ((x.data.getD (n / 8 + j + 1) 0 <<< (8 - n % 8)) % 256)) =
        ofBits ((toBits x).drop n) := by
      apply List.ext_getElem?
      intro j
      rw [getElem?_ofBits, List.getElem?_map, List.length_drop, length_toBits]
      by_cases hj : j < (x.len - n + 7) / 8
      · rw [List.getElem?_range (by split <;> omega), if_pos hj]
        simp only [Option.map_some']
        rw [if_neg (by omega)]
        exact congrArg some (split_tail_byte_off x hx n j hoff h2).symm
      · rw [List.getElem?_eq_none (by simp only [List.length_range]; split <;> omega),
          if_neg hj]
        rfl
    rw [hmk1, hmk2, hdata1, hdata2]
  · have hal : n % 8 = 0 := by omega
    have hfb1 : 1 ≤ n / 8 := by omega
    rw [if_neg hoff]
    simp only [Option.bind_eq_bind, Option.some_bind, Option.pure_def]
    have hd1len : (x.data.take (n / 8)).length = n / 8 := by
      simp only [List.length_take]
      omega
    rw [TydiBinary.mk?, if_pos (by rw [hd1len]; omega)]
    simp only [Option.bind_eq_bind, Option.pure_def, Option.some_bind]
    rw [if_neg hoff, if_neg (by omega)]
    rw [splitLoop_eq x.data (n % 8)
      ((x.len - n) / 8 + if (x.len - n) % 8 > 0 then 1 else 0) (n / 8 - 1) (by split <;> omega)]
    simp only [Option.bind_eq_bind, Option.pure_def, Option.some_bind]
    have hbtalen : ((List.range ((x.len - n) / 8 +
        if (x.len - n) % 8 > 0 then 1 else 0)).map fun j =>
          if n % 8 = 0 then x.data.getD (n / 8 - 1 + j + 1) 0
          else (x.data.getD (n / 8 - 1 + j) 0 >>> (n % 8)) |||
            ((x.data.getD (n / 8 - 1 + j + 1) 0 <<< (8 - n % 8)) % 256)).length =
        (x.len - n) / 8 + if (x.len - n) % 8 > 0 then 1 else 0 := by
      simp
    rw [TydiBinary.mk?, if_pos (by rw [hbtalen]; split <;> omega)]
    simp only [Option.bind_eq_bind, Option.pure_def, Option.some_bind]
    refine congrArg some ?_
    have hdata1 : ofBits ((toBits x).take n) = x.data.take (n / 8) := by
      apply List.ext_getElem?
      intro j
      rw [getElem?_ofBits, List.getElem?_take]
      have hlt : ((toBits x).take n).length = n := by
        rw [List.length_take, length_toBits]
        omega
      rw [hlt]
      by_cases hj : j < n / 8
      · rw [if_pos (by omega), if_pos hj, List.getElem?_eq_getElem (by omega)]
        refine congrArg some ?_
        rw [split_body_byte x hx n j h2 (by omega)]
        rw [List.getD_eq_getElem?_getD, List.getElem?_eq_getElem (by omega)]
        rfl
      · rw [if_neg (by omega), if_neg hj]
    have hdata2 : ((List.range ((x.len - n) / 8 +
        if (x.len - n) % 8 > 0 then 1 else 0)).map fun j =>
          if n % 8 = 0 then x.data.getD (n / 8 - 1 + j + 1) 0
          else (x.data.getD (n / 8 - 1 + j) 0 >>> (n % 8)) |||
            ((x.data.getD (n / 8 - 1 + j + 1) 0 <<< (8 - n % 8)) % 256)) =
        ofBits ((toBits x).drop n) := by
      apply List.ext_getElem?
      intro j
      rw [getElem?_ofBits, List.getElem?_map, List.length_drop, length_toBits]
      by_cases hj : j < (x.len - n + 7) / 8
      · rw [List.getElem?_range (by split <;> omega), if_pos hj]
        simp only [Option.map_some']
        rw [if_pos hal]
        have hix : n / 8 - 1 + j + 1 = n / 8 + j := by omega
        rw [hix]
        exact congrArg some (split_tail_byte_aligned x hx n j hal h2).symm
      · rw [List.getElem?_eq_none (by simp only [List.length_range]; split <;> omega),
          if_neg hj]
        rfl
    rw [hmk1, hmk2, hdata1, hdata2]

/-! ## Claims C1 and C8: buffer round trips -/

/-- Claim C1 (amended): for byte-normalized buffers — `data` holding exactly
`ceil(len/8)` bytes, each below 256, with every bit at index `≥ len` zero —
and a split offset of at least one bit, `split (concatenate a b) a.len`
returns `(a, b)` exactly, and `concatenate` of `split x n` returns `x`
exactly.  As stated over all buffers the claim is false
(`tydi_C1_counterexample`): `split` zeroes the garbage bits beyond `len` that
`concatenate` preserves, and `split` at offset 0 panics on a `usize`
underflow (`full_bytes1 - 1`). -/
theorem tydi_C1 (a b x : TydiBinary) (n : Nat)
    (ha : Normal a) (hb : Normal b) (ha1 : 1 ≤ a.len)
    (hx : Normal x) (hn1 : 1 ≤ n) (hn2 : n ≤ x.len) :
    (∃ c, a.concatenate b = some c ∧ c.split a.len = some (a, b)) ∧
    (∃ p q, x.split n = some (p, q) ∧ p.concatenate q = some x) := by
  constructor
  · refine ⟨mkBits (toBits a ++ toBits b), concatenate_eq a b ha hb, ?_⟩
    have hc : Normal (mkBits (toBits a ++ toBits b)) := normal_mkBits _
    have hlen : (mkBits (toBits a ++ toBits b)).len = a.len + b.len := by
      simp [mkBits, length_toBits]
    rw [split_eq _ hc a.len ha1 (by rw [hlen]; omega)]
    rw [toBits_mkBits]
    have hta : (toBits a).length = a.len := length_toBits a
    rw [← hta, List.take_left, List.drop_left, mkBits_toBits a ha, mkBits_toBits b hb]
  · refine ⟨mkBits ((toBits x).take n), mkBits ((toBits x).drop n),
      split_eq x hx n hn1 hn2, ?_⟩
    rw [concatenate_eq _ _ (normal_mkBits _) (normal_mkBits _),
      toBits_mkBits, toBits_mkBits, List.take_append_drop, mkBits_toBits x hx]

/-- Witness for C1 at the buffers `a = {[0x01], 1}`, `b = {[0x02], 2}`,
`x = {[0xAB, 0x0C], 12}` with split offset `n = 5`. -/
theorem tydi_C1_witness :
    Normal ⟨[1], 1⟩ ∧ Normal ⟨[2], 2⟩ ∧ 1 ≤ (⟨[1], 1⟩ : TydiBinary).len ∧
    Normal ⟨[0xAB, 0x0C], 12⟩ ∧ 1 ≤ 5 ∧ 5 ≤ (⟨[0xAB, 0x0C], 12⟩ : TydiBinary).len ∧
    ((∃ c, TydiBinary.concatenate ⟨[1], 1⟩ ⟨[2], 2⟩ = some c ∧
        c.split 1 = some (⟨[1], 1⟩, ⟨[2], 2⟩)) ∧
      (∃ p q, TydiBinary.split ⟨[0xAB, 0x0C], 12⟩ 5 = some (p, q) ∧
        p.concatenate q = some ⟨[0xAB, 0x0C], 12⟩)) :=
  ⟨by decide, by decide, by decide, by decide, by decide, by decide,
    tydi_C1 ⟨[1], 1⟩ ⟨[2], 2⟩ ⟨[0xAB, 0x0C], 12⟩ 5
      (by decide) (by decide) (by decide) (by decide) (by decide) (by decide)⟩

/-- Counterexample to C1 as stated: the buffers `a = {[0xFF], 1}` and
`b = {[0x00], 1}` satisfy the `TydiBinary` invariant, but
`split(concatenate(a, b), 1)` returns `({[0x01], 1}, {[0x7F], 1})`, not
`(a, b)` — the garbage bits of `a`'s byte beyond its bit length are masked
away by `split` but kept by `concatenate`. -/
theorem tydi_C1_counterexample :
    (TydiBinary.concatenate ⟨[255], 1⟩ ⟨[0], 1⟩).bind (fun c => c.split 1) =
      some (⟨[1], 1⟩, ⟨[127], 1⟩) ∧
    ((⟨[1], 1⟩ : TydiBinary), (⟨[127], 1⟩ : TydiBinary)) ≠
      (⟨[255], 1⟩, ⟨[0], 1⟩) := by
  decide

/-- Claim C8: the spec's concrete scenario, which is also the repository's own
`test_binary_glue` vector: `{[0b101], 3}` concatenated with
`{[0b01000011], 8}` gives bytes `[0x1D, 0x02]` with length 11, and splitting
at 3 recovers both operands exactly. -/
theorem tydi_C8 :
    TydiBinary.concatenate ⟨[0b101], 3⟩ ⟨[0b01000011], 8⟩ =
      some ⟨[0x1D, 0x02], 11⟩ ∧
    TydiBinary.split ⟨[0x1D, 0x02], 11⟩ 3 =
      some (⟨[0b101], 3⟩, ⟨[0b01000011], 8⟩) := by
  decide

/-! ## Elements and streams (`src/lib.rs`, `src/drilling.rs`)

`TydiPacket` is an optional payload plus a hierarchical `last` vector.
Stateful iteration (the `inner_result` accumulators of `vectorize` and
`vectorize_inner`, the shared `data_iter` of `inject`) is explicit state;
`unwrap()` panics are `none`. -/

structure TydiPacket (T : Type) where
  data : Option T
  last : List Bool
deriving DecidableEq

structure TydiVec (T : Type) where
  data : List (TydiPacket T)
  d : Int
deriving DecidableEq

variable {T B : Type}

/-- `impl From<Vec<T>> for TydiVec<T>` (`src/lib.rs`): an empty input becomes
the single empty-sequence marker element `{data: None, last: [true]}`. -/
def tydiVecFromList (value : List T) : TydiVec T :=
  if value.isEmpty then ⟨[⟨none, [true]⟩], 0⟩
  else ⟨value.enum.map fun p => ⟨some p.2, [decide (p.1 = value.length - 1)]⟩, 0⟩

/-- `TydiConvert::convert` for `Vec<T>` and `&[T]` (`src/drilling.rs`):
element `i` carries payload `Some(xs[i])` and `last = [i == len - 1]`; an
empty input maps to the empty stream. -/
def convert (xs : List T) : List (TydiPacket T) :=
  xs.enum.map fun p => ⟨some p.2, [decide (p.1 = xs.length - 1)]⟩

def listModify (g : α → α) : List α → Nat → List α
  | [], _ => []
  | y :: rest, 0 => g y :: rest
  | y :: rest, k + 1 => y :: listModify g rest k

/-- `TydiDrill::drill` (`src/drilling.rs`).  `d` is the `last` length of the
first element; the last element of each non-empty group gets `last[d]` set,
a Rust index assignment `res[res_len - 1].last[d] = true` that panics when
`d` is out of range (`List.set` is a no-op there instead; the theorems below
stay in the uniform-depth domain where the index is in range). -/
def drill (s : List (TydiPacket T)) (f : T → List B) : List (TydiPacket B) :=
  let d := (s.head?.map fun el => el.last.length).getD 0
  s.flatMap fun el =>
    let newLasts := el.last ++ [false]
    match el.data with
    | some old =>
      let res := (f old).map fun nEl => (⟨some nEl, newLasts⟩ : TydiPacket B)
      if res.isEmpty then [⟨none, el.last ++ [true]⟩]
      else listModify (fun p => ⟨p.data, p.last.set d true⟩) res (res.length - 1)
    | none => [⟨none, newLasts⟩]

/-- The loop of `TydiDrill::vectorize` (`src/drilling.rs`) with the running
`inner_result` group explicit.  `last_copy.pop().unwrap()` on an element with
an empty `last` vector is a panic.  The final unterminated group is
discarded, as in the source. -/
def vectorizeGo : List (TydiPacket T) → List (TydiPacket T) →
    Option (List (List (TydiPacket T)))
  | [], _ => some []
  | x :: rest, inner =>
    if x.last.isEmpty then none
    else
      let lastEl := x.last.getLastD false
      let inner1 := if lastEl && x.data.isNone then inner
        else inner ++ [⟨x.data, x.last.dropLast⟩]
      if lastEl then (vectorizeGo rest []).map (inner1 :: ·)
      else vectorizeGo rest inner1

def vectorize (s : List (TydiPacket T)) : Option (List (List (TydiPacket T))) :=
  vectorizeGo s []

/-- The loop of `TydiDrill::vectorize_inner` (`src/drilling.rs`): payloads
accumulate into the pending group; a group is emitted on the popped last
flag, and a payload-less element that is not group-final emits a `None`
element and resets the accumulator. -/
def vectorizeInnerGo : List (TydiPacket T) → List T →
    Option (List (TydiPacket (List T)))
  | [], _ => some []
  | x :: rest, inner =>
    if x.last.isEmpty then none
    else
      let lastEl := x.last.getLastD false
      let inner1 := match x.data with
        | some v => inner ++ [v]
        | none => inner
      if lastEl then
        (vectorizeInnerGo rest []).map
          ((⟨some inner1, x.last.dropLast⟩ : TydiPacket (List T)) :: ·)
      else if x.data.isNone then
        (vectorizeInnerGo rest []).map
          ((⟨none, x.last.dropLast⟩ : TydiPacket (List T)) :: ·)
      else vectorizeInnerGo rest inner1

def vectorize_inner (s : List (TydiPacket T)) : Option (List (TydiPacket (List T))) :=
  vectorizeInnerGo s []

/-- The child-consuming inner `while` of `TydiDrill::inject`: stop on a
`None` child (consumed, nothing pushed), otherwise push the payload and stop
once the innermost last flag fires; `el.last.last().unwrap()` on an empty
`last` vector is a panic. -/
def consume : List (TydiPacket B) → List B → Option (List B × List (TydiPacket B))
  | [], acc => some (acc, [])
  | el :: rest, acc =>
    match el.data with
    | none => some (acc, rest)
    | some v =>
      match el.last.getLast? with
      | none => none
      | some flag =>
        if flag then some (acc ++ [v], rest)
        else consume rest (acc ++ [v])

/-- `TydiDrill::inject` (`src/drilling.rs`), with the mutable field accessor
`f : Fn(&mut T) -> &mut Vec<B>` modelled as a getter/setter pair and the
shared `data_iter` as explicit state: returns the updated parents and the
unconsumed remainder of the child stream.  A parent whose payload is `None`
calls `data_iter.next()` — consuming one child element — and is kept
unchanged. -/
def injectGo (g : T → List B) (st : T → List B → T) :
    List (TydiPacket T) → List (TydiPacket B) →
      Option (List (TydiPacket T) × List (TydiPacket B))
  | [], ds => some ([], ds)
  | p :: ps, ds =>
    match p.data with
    | none => (injectGo g st ps (ds.drop 1)).map fun r => (p :: r.1, r.2)
    | some v => do
      let c ← consume ds []
      let r ← injectGo g st ps c.2
      pure ((⟨some (st v (g v ++ c.1)), p.last⟩ : TydiPacket T) :: r.1, r.2)

def inject (g : T → List B) (st : T → List B → T)
    (ps : List (TydiPacket T)) (ds : List (TydiPacket B)) :
    Option (List (TydiPacket T)) :=
  (injectGo g st ps ds).map (·.1)

/-! ## The per-element codec

`TydiPacket::to_binary` and `TydiPacket::from_binary` are not part of the
sources — only their callers `finish` and `packets_from_binaries` in
`src/drilling.rs` are — so they are modelled from the spec (§4.5, §6),
parametrized by the payload's fixed-width encoding. -/

/-- Modelled from the spec: `TydiPacket::to_binary` is missing from `src/`.
Per §4.5 the strobe is the `bool` lift of `payload.isPresent`, the last bits
pack each `last` flag in insertion order (the `From<Vec<bool>>` lift), the
payload bits are its fixed-width binary form — or `fixedPayloadWidth` zero
bits when absent — and the result is
`concatenate(concatenate(strobe, lastBits), payloadBits)`. -/
def TydiPacket.to_binary (enc : T → TydiBinary) (w : Nat) (e : TydiPacket T) :
    Option TydiBinary := do
  let strobe := boolToTydiBinary e.data.isSome
  let lastBits := packBools e.last
  let payloadBits := match e.data with
    | some v => enc v
    | none => mkBits (List.replicate w false)
  let s1 ← strobe.concatenate lastBits
  s1.concatenate payloadBits

/-- Modelled from the spec: `TydiPacket::from_binary` is missing from `src/`.
Per §4.5 it is the inverse: split off 1 strobe bit, then `dimensionDepth`
last bits, then decode the remaining bits as the payload when the strobe was
set, else `none`. -/
def TydiPacket.from_binary (dec : TydiBinary → T) (x : TydiBinary) (d : Nat) :
    TydiPacket T :=
  { data := if (toBits x).getD 0 false then
      some (dec (mkBits ((toBits x).drop (1 + d)))) else none
    last := ((toBits x).drop 1).take d }

/-- `TydiPacktestToBinary::finish` (`src/drilling.rs`): `to_binary` applied
to every element of the stream in order. -/
def finish (enc : T → TydiBinary) (s : List (TydiPacket T)) (w : Nat) :
    Option (List TydiBinary) :=
  s.mapM (TydiPacket.to_binary enc w)

/-- `packets_from_binaries` (`src/drilling.rs`): `from_binary` applied to
every buffer in order. -/
def packets_from_binaries (dec : TydiBinary → T) (value : List TydiBinary)
    (dim : Nat) : List (TydiPacket T) :=
  value.map fun el => TydiPacket.from_binary dec el dim

/-! ## Drill: per-element behaviour (claim C2) -/

/-- The per-element output of `drill` as the claim describes it: a `None`
payload propagates with the new flag `false`; an empty expansion becomes the
empty-group marker; otherwise one element per item, all with the new flag
`false` except the final item whose new-dimension flag is `true`, the outer
flags copied unchanged. -/
def drillElemSpec (f : T → List B) (e : TydiPacket T) : List (TydiPacket B) :=
  match e.data with
  | none => [⟨none, e.last ++ [false]⟩]
  | some v =>
    match f v with
    | [] => [⟨none, e.last ++ [true]⟩]
    | x :: rest =>
      ((x :: rest).dropLast.map fun it => (⟨some it, e.last ++ [false]⟩ : TydiPacket B)) ++
        [⟨some ((x :: rest).getLast (List.cons_ne_nil x rest)), e.last ++ [true]⟩]

theorem listModify_concat (g : α → α) (A : List α) (a : α) :
    listModify g (A ++ [a]) A.length = A ++ [g a] := by
  induction A with
  | nil => rfl
  | cons y ys ih =>
    show y :: listModify g (ys ++ [a]) ys.length = y :: (ys ++ [g a])
    rw [ih]

theorem listModify_last (g : α → α) (l : List α) (h : l ≠ []) :
    listModify g l (l.length - 1) = l.dropLast ++ [g (l.getLast h)] := by
  have hlen : l.length - 1 = l.dropLast.length := (List.length_dropLast l).symm
  have h1 : listModify g l (l.length - 1) =
      listModify g (l.dropLast ++ [l.getLast h]) (l.length - 1) := by
    rw [List.dropLast_append_getLast h]
  rw [h1, hlen, listModify_concat]

theorem set_append_last (l : List Bool) (b c : Bool) :
    (l ++ [b]).set l.length c = l ++ [c] := by
  induction l with
  | nil => rfl
  | cons y ys ih =>
    simp only [List.cons_append, List.length_cons, List.set_cons_succ, ih]

/-- `drill` on a uniform-depth stream is exactly the claim's per-element
expansion, flat-mapped in order. -/
theorem drill_flatMap (s : List (TydiPacket T)) (f : T → List B) (d : Nat)
    (h : ∀ el ∈ s, el.last.length = d) :
    drill s f = s.flatMap (drillElemSpec f) := by
  cases s with
  | nil => rfl
  | cons e0 rest =>
    unfold drill
    simp only [List.head?_cons, Option.map_some', Option.getD_some,
      h e0 (List.mem_cons_self e0 rest)]
    apply List.flatMap_congr
    intro el hel
    have hlen : el.last.length = d := h el hel
    cases hdata : el.data with
    | none => simp [drillElemSpec, hdata]
    | some v =>
      cases hf : f v with
      | nil => simp [drillElemSpec, hdata, hf]
      | cons x rest2 =>
        simp only [hdata, hf, drillElemSpec]
        have hne : (x :: rest2).map
            (fun nEl => (⟨some nEl, el.last ++ [false]⟩ : TydiPacket B)) ≠ [] := by
          simp
        rw [if_neg (by simp)]
        have hlen2 : ((x :: rest2).map
            (fun nEl => (⟨some nEl, el.last ++ [false]⟩ : TydiPacket B))).length - 1 =
            ((x :: rest2).map
              (fun nEl => (⟨some nEl, el.last ++ [false]⟩ : TydiPacket B))).length - 1 := rfl
        rw [listModify_last _ _ hne]
        rw [← List.map_dropLast, List.getLast_map _ _ hne]
        congr 1
        simp only []
        rw [← hlen, set_append_last]

/-- Claim C2: on a stream whose elements all carry a `last` vector of length
`d`, `drill` emits, per element in order: one `{None, last ++ [false]}` for a
`None` payload; one `{None, last ++ [true]}` when the expansion is empty;
otherwise one element per item with the new flag `false` except the final
item whose new-dimension flag (index `d`) is `true` — outer flags copied
unchanged. -/
theorem tydi_C2 (s : List (TydiPacket T)) (f : T → List B) (d : Nat)
    (h : ∀ el ∈ s, el.last.length = d) :
    drill s f = s.flatMap (drillElemSpec f) :=
  drill_flatMap s f d h

/-- Witness for C2 on the stream `[{Some 2, [true]}]` with expansion
`fun n => [n, n + 1]`. -/
theorem tydi_C2_witness :
    (∀ el ∈ [(⟨some 2, [true]⟩ : TydiPacket Nat)], el.last.length = 1) ∧
    drill [(⟨some 2, [true]⟩ : TydiPacket Nat)] (fun n => [n, n + 1]) =
      [(⟨some 2, [true]⟩ : TydiPacket Nat)].flatMap
        (drillElemSpec fun n => [n, n + 1]) :=
  ⟨by decide, tydi_C2 [⟨some 2, [true]⟩] (fun n => [n, n + 1]) 1 (by decide)⟩

/-! ## Claim C10: `convert` versus the `TydiVec` conversions -/

/-- Claim C10: `convert` of an empty sequence is the empty stream — unlike
`From<Vec<T>> for TydiVec<T>`, which produces the single empty-sequence
marker `{None, [true]}` — and every element of any `convert` output has a
present payload and a `last` vector of length exactly 1. -/
theorem tydi_C10 (TT : Type) (xs : List TT) (p : TydiPacket TT) :
    convert ([] : List TT) = [] ∧
    tydiVecFromList ([] : List TT) = ⟨[⟨none, [true]⟩], 0⟩ ∧
    (p ∈ convert xs → p.data.isSome = true ∧ p.last.length = 1) := by
  refine ⟨rfl, rfl, ?_⟩
  intro hp
  simp only [convert, List.mem_map] at hp
  obtain ⟨⟨i, v⟩, _, rfl⟩ := hp
  exact ⟨rfl, rfl⟩

/-- Witness for C10 at `xs = [7]` and its one element. -/
theorem tydi_C10_witness :
    (⟨some 7, [true]⟩ : TydiPacket Nat) ∈ convert [7] ∧
    (convert ([] : List Nat) = [] ∧
      tydiVecFromList ([] : List Nat) = ⟨[⟨none, [true]⟩], 0⟩ ∧
      ((⟨some 7, [true]⟩ : TydiPacket Nat) ∈ convert [7] →
        (⟨some 7, [true]⟩ : TydiPacket Nat).data.isSome = true ∧
        (⟨some 7, [true]⟩ : TydiPacket Nat).last.length = 1)) :=
  ⟨by decide, tydi_C10 Nat [7] ⟨some 7, [true]⟩⟩

/-! ## Claim C5: `vectorize_inner` inverts `drill` after `convert` -/

/-- Processing one non-empty drilled group accumulates its payloads and, on
the group-final element, emits one element carrying the whole group. -/
theorem vinner_block (b : Bool) :
    ∀ (items : List B) (x : B) (tail : List (TydiPacket B)) (acc : List B),
      vectorizeInnerGo
        (((x :: items).dropLast.map fun it => (⟨some it, [b, false]⟩ : TydiPacket B)) ++
          ((⟨some ((x :: items).getLast (List.cons_ne_nil x items)), [b, true]⟩ :
              TydiPacket B) :: tail)) acc =
        (vectorizeInnerGo tail []).map
          ((⟨some (acc ++ (x :: items)), [b]⟩ : TydiPacket (List B)) :: ·) := by
  intro items
  induction items with
  | nil =>
    intro x tail acc
    rfl
  | cons y ys ih =>
    intro x tail acc
    rw [show (x :: y :: ys).dropLast = x :: (y :: ys).dropLast from rfl,
      List.getLast_cons (List.cons_ne_nil y ys), List.map_cons, List.cons_append]
    show vectorizeInnerGo _ (acc ++ [x]) = _
    rw [ih y tail (acc ++ [x]), List.append_assoc]
    rfl

/-- Processing an empty-group marker emits one element carrying the (empty)
accumulated group. -/
theorem vinner_marker (b : Bool) (tail : List (TydiPacket B)) (acc : List B) :
    vectorizeInnerGo ((⟨none, [b, true]⟩ : TydiPacket B) :: tail) acc =
      (vectorizeInnerGo tail []).map
        ((⟨some acc, [b]⟩ : TydiPacket (List B)) :: ·) := by
  rfl

/-- `vectorize_inner` over the concatenated drilled blocks produces one
element per source pair, carrying the full expansion as payload. -/
theorem vinner_drill_blocks (f : T → List B) :
    ∀ (ps : List (T × Bool)),
      vectorizeInnerGo ((ps.map fun q =>
          (⟨some q.1, [q.2]⟩ : TydiPacket T)).flatMap (drillElemSpec f)) [] =
        some (ps.map fun q => (⟨some (f q.1), [q.2]⟩ : TydiPacket (List B))) := by
  intro ps
  induction ps with
  | nil => rfl
  | cons q qs ih =>
    rw [List.map_cons, List.flatMap_cons]
    cases hf : f q.1 with
    | nil =>
      have hblk : drillElemSpec f (⟨some q.1, [q.2]⟩ : TydiPacket T) =
          [⟨none, [q.2, true]⟩] := by
        simp [drillElemSpec, hf]
      rw [hblk, List.cons_append, List.nil_append, vinner_marker, ih]
      simp [hf]
    | cons x rest =>
      have hblk : drillElemSpec f (⟨some q.1, [q.2]⟩ : TydiPacket T) =
          ((x :: rest).dropLast.map fun it =>
            (⟨some it, [q.2, false]⟩ : TydiPacket B)) ++
          [⟨some ((x :: rest).getLast (List.cons_ne_nil x rest)), [q.2, true]⟩] := by
        simp [drillElemSpec, hf]
      rw [hblk, List.append_assoc, List.cons_append, List.nil_append,
        vinner_block q.2 rest x _ [], ih]
      simp [hf]

/-- Claim C5: for every sequence `xs` and expansion `f`,
`vectorize_inner (drill (convert xs) f)` yields exactly `|xs|` elements,
element `i` carrying payload `Some (f xs[i])` (the empty sequence when the
expansion is empty) and last vector `[i == |xs| - 1]`. -/
theorem tydi_C5 (A BB : Type) (xs : List A) (f : A → List BB) :
    vectorize_inner (drill (convert xs) f) =
      some (xs.enum.map fun p =>
        (⟨some (f p.2), [decide (p.1 = xs.length - 1)]⟩ : TydiPacket (List BB))) := by
  have hdepth : ∀ el ∈ convert xs, el.last.length = 1 := by
    intro el hel
    simp only [convert, List.mem_map] at hel
    obtain ⟨p, _, rfl⟩ := hel
    rfl
  have hconv : convert xs = ((xs.enum.map fun p =>
      (p.2, decide (p.1 = xs.length - 1))).map
        fun q => (⟨some q.1, [q.2]⟩ : TydiPacket A)) := by
    simp only [convert, List.map_map]
    rfl
  rw [vectorize_inner, drill_flatMap (convert xs) f 1 hdepth, hconv,
    vinner_drill_blocks f, List.map_map]
  rfl

/-! ## Claims C3 and C4: `inject` -/

/-- Claim C3 (amended): a prefix of `n` payload-less parent elements is
passed through unchanged while exactly one child element is consumed per
skipped parent (the `data_iter.next()` call in the `None` branch), after
which `inject` continues with the remaining parents and remaining children.
The original claim — no child element consumed — is refuted by
`tydi_C3_counterexample`. -/
theorem tydi_C3 (g : T → List B) (st : T → List B → T)
    (n : Nat) (ps : List (TydiPacket T)) (ds : List (TydiPacket B))
    (hn : n ≤ ps.length) (h : ∀ p ∈ ps.take n, p.data = none) :
    injectGo g st ps ds = (injectGo g st (ps.drop n) (ds.drop n)).map
      (fun r => (ps.take n ++ r.1, r.2)) := by
  induction n generalizing ps ds with
  | zero =>
    simp only [List.take_zero, List.drop_zero, List.nil_append]
    cases injectGo g st ps ds with
    | none => rfl
    | some r => rfl
  | succ n ih =>
    cases ps with
    | nil => simp at hn
    | cons p ps' =>
      obtain ⟨pd, pl⟩ := p
      have hp : pd = none := h ⟨pd, pl⟩ (by simp [List.take_succ_cons])
      subst hp
      show (injectGo g st ps' (ds.drop 1)).map
          (fun r => ((⟨none, pl⟩ : TydiPacket T) :: r.1, r.2)) = _
      rw [ih ps' (ds.drop 1) (by simpa using hn) (by
        intro x hx
        exact h x (by rw [List.take_succ_cons]; exact List.mem_cons_of_mem _ hx))]
      have hdd : (ds.drop 1).drop n = ds.drop (n + 1) := by
        rw [List.drop_drop]
        congr 1
        omega
      rw [hdd]
      have hps : ((⟨none, pl⟩ : TydiPacket T) :: ps').drop (n + 1) = ps'.drop n := rfl
      rw [hps]
      cases injectGo g st (ps'.drop n) (ds.drop (n + 1)) with
      | none => rfl
      | some r => rfl

/-- Witness for C3: two payload-less parents consume exactly the first two of
three child elements. -/
theorem tydi_C3_witness :
    2 ≤ ([(⟨none, [true]⟩ : TydiPacket (List Nat)), ⟨none, [false]⟩] : List _).length ∧
    (∀ p ∈ ([(⟨none, [true]⟩ : TydiPacket (List Nat)), ⟨none, [false]⟩] : List _).take 2,
      p.data = none) ∧
    injectGo (fun v : List Nat => v) (fun _ l => l)
        [⟨none, [true]⟩, ⟨none, [false]⟩]
        [(⟨some 1, [true]⟩ : TydiPacket Nat), ⟨some 2, [true]⟩, ⟨some 3, [true]⟩] =
      (injectGo (fun v : List Nat => v) (fun _ l => l)
          (([(⟨none, [true]⟩ : TydiPacket (List Nat)), ⟨none, [false]⟩] : List _).drop 2)
          (([(⟨some 1, [true]⟩ : TydiPacket Nat), ⟨some 2, [true]⟩,
            ⟨some 3, [true]⟩] : List _).drop 2)).map
        (fun r => (([(⟨none, [true]⟩ : TydiPacket (List Nat)),
          ⟨none, [false]⟩] : List _).take 2 ++ r.1, r.2)) :=
  ⟨by decide, by decide,
    tydi_C3 (fun v : List Nat => v) (fun _ l => l) 2
      [⟨none, [true]⟩, ⟨none, [false]⟩]
      [⟨some 1, [true]⟩, ⟨some 2, [true]⟩, ⟨some 3, [true]⟩]
      (by decide) (by decide)⟩

/-- Counterexample to C3 as stated: a single payload-less parent consumes the
only child element — the remaining child stream is empty, not the original
one-element stream. -/
theorem tydi_C3_counterexample :
    injectGo (fun v : List Nat => v) (fun _ l => l)
        [(⟨none, [true]⟩ : TydiPacket (List Nat))]
        [(⟨some 5, [true]⟩ : TydiPacket Nat)] =
      some ([⟨none, [true]⟩], []) ∧
    ([] : List (TydiPacket Nat)) ≠ [⟨some 5, [true]⟩] := by
  decide

/-- Claim C4 (amended): running out of child elements is not detected —
`inject` completes normally, consuming nothing further and returning every
remaining parent element unchanged (given the accessor is a lawful field
lens, `st v (g v) = v`), instead of failing with a `MisalignedStream`
error.  The original claim — that it must fail — is refuted by
`tydi_C4_counterexample`. -/
theorem tydi_C4 (g : T → List B) (st : T → List B → T)
    (hl : ∀ v, st v (g v) = v) (ps : List (TydiPacket T)) :
    injectGo g st ps ([] : List (TydiPacket B)) = some (ps, []) := by
  induction ps with
  | nil => rfl
  | cons p ps' ih =>
    obtain ⟨pd, pl⟩ := p
    cases pd with
    | none =>
      show (injectGo g st ps' (([] : List (TydiPacket B)).drop 1)).map
          (fun r => ((⟨none, pl⟩ : TydiPacket T) :: r.1, r.2)) = _
      rw [show (([] : List (TydiPacket B)).drop 1) = [] from rfl, ih]
      rfl
    | some v =>
      show ((consume ([] : List (TydiPacket B)) []).bind fun c =>
        (injectGo g st ps' c.2).bind fun r =>
          some ((⟨some (st v (g v ++ c.1)), pl⟩ : TydiPacket T) :: r.1, r.2)) = _
      rw [show consume ([] : List (TydiPacket B)) ([] : List B) = some ([], []) from rfl]
      show ((injectGo g st ps' []).bind fun r =>
        some ((⟨some (st v (g v ++ [])), pl⟩ : TydiPacket T) :: r.1, r.2)) = _
      rw [ih]
      show some ((⟨some (st v (g v ++ [])), pl⟩ : TydiPacket T) :: ps', ([] : List (TydiPacket B))) = _
      rw [List.append_nil, hl v]

/-- Witness for C4: with the identity lens on a `List Nat` payload, two
parents survive an empty child stream unchanged. -/
theorem tydi_C4_witness :
    (∀ v : List Nat, (fun (_ : List Nat) (l : List Nat) => l) v (id v) = v) ∧
    injectGo (fun v : List Nat => id v) (fun _ l => l)
        [(⟨some [1], [true]⟩ : TydiPacket (List Nat)), ⟨none, [false]⟩]
        ([] : List (TydiPacket Nat)) =
      some ([⟨some [1], [true]⟩, ⟨none, [false]⟩], []) :=
  ⟨fun _ => rfl,
    tydi_C4 (fun v : List Nat => id v) (fun _ l => l) (fun _ => rfl)
      [⟨some [1], [true]⟩, ⟨none, [false]⟩]⟩

/-- Counterexample to C4 as stated: the single child element has its last
flag `false`, so the parent's group is still open when the child stream runs
out — yet `inject` returns normally with the partially filled parent rather
than failing with `MisalignedStream`. -/
theorem tydi_C4_counterexample :
    inject (fun v : List Nat => v) (fun _ l => l)
        [(⟨some [], [true]⟩ : TydiPacket (List Nat))]
        [(⟨some 5, [false]⟩ : TydiPacket Nat)] =
      some [⟨some [5], [true]⟩] := by
  decide

/-! ## Claim C9: `vectorize` versus `vectorize_inner` -/

/-- The claimed correspondence between a `vectorize_inner` element and the
matching `vectorize` group: the element carries exactly the group's payload
sequence, and for a non-empty group the same shortened last vector as the
group's final element. -/
def GroupRel (e : TydiPacket (List T)) (grp : List (TydiPacket T)) : Prop :=
  e.data = some (grp.filterMap fun p => p.data) ∧
  (grp ≠ [] → e.last = (grp.getLastD ⟨none, []⟩).last)

/-- Streams on which the two collapses agree: every element with a `None`
payload closes its dimension, and follows an element that also closed it
(i.e. `None` appears only as an empty-group marker at a group start). -/
abbrev MarkerChain (s : List (TydiPacket T)) : Prop :=
  List.Chain' (fun p q => q.data = none → p.last.getLastD false = true) s

theorem vec_pair (s : List (TydiPacket T)) :
    ∀ accI : List (TydiPacket T),
      (∀ e ∈ s, e.last ≠ []) →
      (∀ e ∈ s, e.data = none → e.last.getLastD false = true) →
      MarkerChain s →
      (accI ≠ [] → ∀ e, s.head? = some e → e.data ≠ none) →
      ∃ gs es, vectorizeGo s accI = some gs ∧
        vectorizeInnerGo s (accI.filterMap fun p => p.data) = some es ∧
        List.Forall₂ GroupRel es gs := by
  induction s with
  | nil =>
    intro accI _ _ _ _
    exact ⟨[], [], rfl, rfl, List.Forall₂.nil⟩
  | cons x rest ih =>
    intro accI h1 h2 h3 hacc
    have hlast : x.last ≠ [] := h1 x (List.mem_cons_self x rest)
    have hemp : x.last.isEmpty = false := by
      cases hx : x.last with
      | nil => exact absurd hx hlast
      | cons a l => rfl
    have h1' : ∀ e ∈ rest, e.last ≠ [] := fun e he => h1 e (List.mem_cons_of_mem _ he)
    have h2' : ∀ e ∈ rest, e.data = none → e.last.getLastD false = true :=
      fun e he => h2 e (List.mem_cons_of_mem _ he)
    have h3' : MarkerChain rest := (List.chain'_cons'.mp h3).2
    have h3head : ∀ y ∈ rest.head?, y.data = none → x.last.getLastD false = true :=
      (List.chain'_cons'.mp h3).1
    cases hdata : x.data with
    | none =>
      have hLE : x.last.getLastD false = true := h2 x (List.mem_cons_self x rest) hdata
      have haccnil : accI = [] := by
        by_contra hne
        exact (hacc hne x rfl) hdata
      subst haccnil
      obtain ⟨gs', es', hg, he, hrel⟩ := ih [] h1' h2' h3' (by intro hne; simp at hne)
      refine ⟨[] :: gs', ⟨some [], x.last.dropLast⟩ :: es', ?_, ?_, ?_⟩
      · simp only [vectorizeGo, hemp, Bool.false_eq_true, if_false, hLE, hdata,
          Option.isNone_none, Bool.and_self, if_true, hg, Option.map_some']
      · simp only [List.filterMap_nil] at he
        simp only [vectorizeInnerGo, hemp, Bool.false_eq_true, if_false, hLE, hdata,
          if_true, he, Option.map_some', List.filterMap_nil]
      · exact List.Forall₂.cons ⟨rfl, by intro h; exact absurd rfl h⟩ hrel
    | some v =>
      by_cases hLE : x.last.getLastD false = true
      · obtain ⟨gs', es', hg, he, hrel⟩ := ih [] h1' h2' h3' (by intro hne; simp at hne)
        refine ⟨(accI ++ [⟨some v, x.last.dropLast⟩]) :: gs',
          ⟨some ((accI.filterMap fun p => p.data) ++ [v]), x.last.dropLast⟩ :: es',
          ?_, ?_, ?_⟩
        · simp only [vectorizeGo, hemp, Bool.false_eq_true, if_false, hLE, hdata,
            Option.isNone_some, Bool.and_false, if_false, if_true, hg, Option.map_some']
        · simp only [List.filterMap_nil] at he
          simp only [vectorizeInnerGo, hemp, Bool.false_eq_true, if_false, hLE, hdata,
            if_true, he, Option.map_some']
        · refine List.Forall₂.cons ⟨?_, ?_⟩ hrel
          · simp
          · intro _
            simp [List.getLastD_concat]
      · have hacc' : accI ++ [(⟨some v, x.last.dropLast⟩ : TydiPacket T)] ≠ [] := by
          simp
        have hnext : (accI ++ [(⟨some v, x.last.dropLast⟩ : TydiPacket T)]) ≠ [] →
            ∀ e, rest.head? = some e → e.data ≠ none := by
          intro _ e hee hnone
          exact hLE (h3head e (by rw [hee]; exact Option.mem_def.mpr rfl) hnone)
        obtain ⟨gs', es', hg, he, hrel⟩ :=
          ih (accI ++ [⟨some v, x.last.dropLast⟩]) h1' h2' h3' hnext
        refine ⟨gs', es', ?_, ?_, hrel⟩
        · simp only [vectorizeGo, hemp, Bool.false_eq_true, if_false, hdata,
            Option.isNone_some, Bool.and_false, if_false, hLE, hg]
        · rw [List.filterMap_append] at he
          simp only [vectorizeInnerGo, hemp, Bool.false_eq_true, if_false, hdata,
            hLE, if_false, Option.isNone_some]
          exact he


/-- Claim C9 (amended): on streams whose elements all have a non-empty `last`
vector and in which a `None` payload occurs only as an empty-group marker
(its innermost flag is `true`, and its predecessor, if any, also closed the
dimension), `vectorize` and `vectorize_inner` succeed with pairwise related
results: same number of groups, the `i`-th `vectorize_inner` element carries
exactly the payload sequence of the `i`-th `vectorize` group, and for a
non-empty group the same shortened last vector as the group's final element.
As stated — with only the non-empty-`last` hypothesis — the claim is false
(`tydi_C9_counterexample`): a mid-group `None` makes `vectorize_inner` emit
an extra element while `vectorize` keeps one group. -/
theorem tydi_C9 (s : List (TydiPacket T))
    (h1 : ∀ e ∈ s, e.last ≠ [])
    (h2 : ∀ e ∈ s, e.data = none → e.last.getLastD false = true)
    (h3 : MarkerChain s) :
    ∃ gs es, vectorize s = some gs ∧ vectorize_inner s = some es ∧
      es.length = gs.length ∧ List.Forall₂ GroupRel es gs := by
  obtain ⟨gs, es, hg, he, hrel⟩ := vec_pair s [] h1 h2 h3 (by intro hne; simp at hne)
  exact ⟨gs, es, hg, he, hrel.length_eq, hrel⟩

/-- Witness for C9 on the stream `[{Some 1, [false]}, {Some 2, [true]},
{None, [true]}]`: one two-element group followed by an empty group. -/
theorem tydi_C9_witness :
    (∀ e ∈ [(⟨some 1, [false]⟩ : TydiPacket Nat), ⟨some 2, [true]⟩, ⟨none, [true]⟩],
      e.last ≠ []) ∧
    (∀ e ∈ [(⟨some 1, [false]⟩ : TydiPacket Nat), ⟨some 2, [true]⟩, ⟨none, [true]⟩],
      e.data = none → e.last.getLastD false = true) ∧
    MarkerChain [(⟨some 1, [false]⟩ : TydiPacket Nat), ⟨some 2, [true]⟩, ⟨none, [true]⟩] ∧
    (∃ gs es,
      vectorize [(⟨some 1, [false]⟩ : TydiPacket Nat), ⟨some 2, [true]⟩, ⟨none, [true]⟩] =
        some gs ∧
      vectorize_inner
        [(⟨some 1, [false]⟩ : TydiPacket Nat), ⟨some 2, [true]⟩, ⟨none, [true]⟩] =
        some es ∧
      es.length = gs.length ∧ List.Forall₂ GroupRel es gs) := by
  have hmc : MarkerChain
      [(⟨some 1, [false]⟩ : TydiPacket Nat), ⟨some 2, [true]⟩, ⟨none, [true]⟩] := by
    refine List.chain'_cons.mpr ⟨?_, List.chain'_cons.mpr ⟨?_, List.chain'_singleton ..⟩⟩
    · intro h
      simp at h
    · intro _
      rfl
  exact ⟨by decide, by decide, hmc,
    tydi_C9 [⟨some 1, [false]⟩, ⟨some 2, [true]⟩, ⟨none, [true]⟩]
      (by decide) (by decide) hmc⟩

/-- Counterexample to C9 as stated: on `[{None, [false]}, {Some 0, [true]}]`
— every `last` vector non-empty — `vectorize` produces one group while
`vectorize_inner` produces two elements, so the group counts differ. -/
theorem tydi_C9_counterexample :
    (∀ e ∈ [(⟨none, [false]⟩ : TydiPacket Nat), ⟨some 0, [true]⟩], e.last ≠ []) ∧
    (vectorize [(⟨none, [false]⟩ : TydiPacket Nat), ⟨some 0, [true]⟩]).map
        List.length ≠
      (vectorize_inner [(⟨none, [false]⟩ : TydiPacket Nat), ⟨some 0, [true]⟩]).map
        List.length := by
  decide


/-! ## Claim C7: the constructor invariant and the `char` lift -/

/-- Claim C7 fails on the `char` lift: `From<char>` stores the UTF-8 bytes of
the character — a single byte for `'m'` — with a hard-coded `len` of
`8 * 4 = 32` bits, violating the invariant `bitLength ≤ 8 * |bytes|`.  The
repository's own test `test_binary_from_string` asserts `binary.len == 8`
for `'m'`, which this code also fails. -/
theorem tydi_C7 :
    (charToTydiBinary 'm').len = 32 ∧
    (charToTydiBinary 'm').data = [0x6D] ∧
    ¬ (charToTydiBinary 'm').len ≤ 8 * (charToTydiBinary 'm').data.length := by
  decide


/-! ## Claim C6: the per-element codec and its stream lifting -/

/-- The payload bit pattern of §4.5: the fixed-width binary form of a present
payload, or `fixedPayloadWidth` zero bits when absent. -/
def payloadBitsSpec (enc : T → TydiBinary) (w : Nat) (e : TydiPacket T) : List Bool :=
  match e.data with
  | some v => toBits (enc v)
  | none => List.replicate w false

theorem normal_payloadBitsSpec (enc : T → TydiBinary) (w : Nat) (e : TydiPacket T)
    (henc : ∀ v, Normal (enc v) ∧ (enc v).len = w) :
    Normal (mkBits (payloadBitsSpec enc w e)) ∧
      (payloadBitsSpec enc w e).length = w := by
  cases hdata : e.data with
  | none =>
    exact ⟨normal_mkBits _, by simp [payloadBitsSpec, hdata]⟩
  | some v =>
    constructor
    · exact normal_mkBits _
    · simp only [payloadBitsSpec, hdata, length_toBits]
      exact (henc v).2

theorem to_binary_eq (enc : T → TydiBinary) (w : Nat) (e : TydiPacket T)
    (henc : ∀ v, Normal (enc v) ∧ (enc v).len = w) :
    e.to_binary enc w =
      some (mkBits ((e.data.isSome :: e.last) ++ payloadBitsSpec enc w e)) := by
  have hstrobe : boolToTydiBinary e.data.isSome = mkBits [e.data.isSome] := by
    cases e.data
    · show boolToTydiBinary false = mkBits [false]
      decide
    · show boolToTydiBinary true = mkBits [true]
      decide
  have hpb : packBools e.last = mkBits e.last := rfl
  have hpay : (match e.data with
      | some v => enc v
      | none => mkBits (List.replicate w false)) = mkBits (payloadBitsSpec enc w e) := by
    cases hdata : e.data with
    | none => simp only [payloadBitsSpec, hdata]
    | some v =>
      simp only [payloadBitsSpec, hdata]
      exact (mkBits_toBits (enc v) (henc v).1).symm
  have hpaynorm : Normal (mkBits (payloadBitsSpec enc w e)) :=
    (normal_payloadBitsSpec enc w e henc).1
  unfold TydiPacket.to_binary
  dsimp only
  rw [hstrobe, hpb, hpay, concatenate_eq _ _ (normal_mkBits _) (normal_mkBits _)]
  simp only [Option.bind_eq_bind, Option.some_bind]
  rw [toBits_mkBits, toBits_mkBits, concatenate_eq _ _ (normal_mkBits _) hpaynorm,
    toBits_mkBits, toBits_mkBits]
  rfl

theorem mapM_eq_map_of (F : α → Option β) (G : α → β) :
    ∀ s : List α, (∀ e ∈ s, F e = some (G e)) → s.mapM F = some (s.map G) := by
  intro s
  induction s with
  | nil => intro _; rfl
  | cons a l ih =>
    intro h
    rw [List.mapM_cons, h a (List.mem_cons_self a l),
      ih fun e he => h e (List.mem_cons_of_mem _ he)]
    rfl

/-- `from_binary` inverts `to_binary` on an element of the declared
dimension depth, given a faithful payload codec. -/
theorem from_binary_to_binary (enc : T → TydiBinary) (dec : TydiBinary → T)
    (w d : Nat) (e : TydiPacket T)
    (henc : ∀ v, Normal (enc v) ∧ (enc v).len = w)
    (hdec : ∀ v, dec (enc v) = v) (he : e.last.length = d) :
    TydiPacket.from_binary dec
      (mkBits ((e.data.isSome :: e.last) ++ payloadBitsSpec enc w e)) d = e := by
  unfold TydiPacket.from_binary
  rw [toBits_mkBits]
  have hd1 : (1 : Nat) + d = d + 1 := by omega
  have hcons : ((e.data.isSome :: e.last) ++ payloadBitsSpec enc w e) =
      e.data.isSome :: (e.last ++ payloadBitsSpec enc w e) := rfl
  rw [hcons, hd1, List.drop_succ_cons, List.getD_cons_zero,
    List.drop_one, List.tail_cons]
  rw [← he, List.take_left, List.drop_left]
  cases hdata : e.data with
  | none =>
    simp only [hdata, Option.isSome_none, Bool.false_eq_true, if_false]
    rw [← hdata]
  | some v =>
    simp only [hdata, Option.isSome_some, if_true]
    have hplv : payloadBitsSpec enc w e = toBits (enc v) := by
      simp [payloadBitsSpec, hdata]
    rw [hplv, mkBits_toBits (enc v) (henc v).1, hdec v, ← hdata]

/-- Claim C6: with a faithful fixed-width payload codec of width `w` and a
stream of uniform dimension depth `d`, `finish` succeeds, producing per
element a buffer whose bit 0 is the strobe (1 iff the payload is present),
bits `1..d` are the last flags in insertion order, and bits `d+1..d+w` are
the payload bits (zero when absent); `packets_from_binaries` maps
`from_binary` over the buffers and reconstructs the stream exactly. -/
theorem tydi_C6 (TT : Type) (enc : TT → TydiBinary) (dec : TydiBinary → TT)
    (w d : Nat) (s : List (TydiPacket TT))
    (henc : ∀ v, Normal (enc v) ∧ (enc v).len = w)
    (hdec : ∀ v, dec (enc v) = v)
    (hs : ∀ e ∈ s, e.last.length = d) :
    ∃ bins, finish enc s w = some bins ∧ bins.length = s.length ∧
      (∀ i, i < s.length → ∃ bin e, bins[i]? = some bin ∧ s[i]? = some e ∧
        bin.len = 1 + d + w ∧
        bin.bit 0 = e.data.isSome ∧
        (∀ j, j < d → bin.bit (1 + j) = e.last.getD j false) ∧
        (∀ j, j < w → bin.bit (1 + d + j) =
          ((e.data.map fun v => (enc v).bit j).getD false))) ∧
      packets_from_binaries dec bins d = s := by
  refine ⟨s.map fun e => mkBits ((e.data.isSome :: e.last) ++ payloadBitsSpec enc w e),
    mapM_eq_map_of _ _ s (fun e _ => to_binary_eq enc w e henc), by simp, ?_, ?_⟩
  · intro i hi
    refine ⟨mkBits (((s[i]).data.isSome :: (s[i]).last) ++
        payloadBitsSpec enc w (s[i])), s[i], ?_, List.getElem?_eq_getElem hi, ?_, ?_, ?_, ?_⟩
    · rw [List.getElem?_map, List.getElem?_eq_getElem hi]
      rfl
    · simp only [mkBits, length_ofBits, List.length_append, List.length_cons,
        (normal_payloadBitsSpec enc w _ henc).2, hs _ (List.getElem_mem hi)]
      omega
    · rw [bit_mkBits]
      rfl
    · intro j hj
      rw [bit_mkBits]
      have : ((((s[i]).data.isSome :: (s[i]).last) ++
          payloadBitsSpec enc w (s[i])).getD (1 + j) false) =
          (((s[i]).last ++ payloadBitsSpec enc w (s[i])).getD j false) := by
        have h1j : 1 + j = j + 1 := by omega
        rw [show (((s[i]).data.isSome :: (s[i]).last) ++
          payloadBitsSpec enc w (s[i])) =
          (s[i]).data.isSome :: ((s[i]).last ++ payloadBitsSpec enc w (s[i])) from rfl,
          h1j, List.getD_cons_succ]
      rw [this, List.getD_append _ _ _ _ (by rw [hs _ (List.getElem_mem hi)]; omega)]
    · intro j hj
      rw [bit_mkBits]
      have h1dj : 1 + d + j = (d + j) + 1 := by omega
      rw [show (((s[i]).data.isSome :: (s[i]).last) ++
        payloadBitsSpec enc w (s[i])) =
        (s[i]).data.isSome :: ((s[i]).last ++ payloadBitsSpec enc w (s[i])) from rfl,
        h1dj, List.getD_cons_succ,
        List.getD_append_right _ _ _ _ (by rw [hs _ (List.getElem_mem hi)]; omega)]
      rw [hs _ (List.getElem_mem hi)]
      have hdj : d + j - d = j := by omega
      rw [hdj]
      cases hdata : (s[i]).data with
      | none =>
        simp only [payloadBitsSpec, hdata, Option.map_none', Option.getD_none]
        rw [List.getD_eq_getElem?_getD, List.getElem?_replicate]
        simp [hj]
      | some v =>
        simp only [payloadBitsSpec, hdata, Option.map_some', Option.getD_some]
        rw [getD_toBits, if_pos (by rw [(henc v).2]; omega)]
  · unfold packets_from_binaries
    rw [List.map_map]
    have : ∀ e ∈ s, TydiPacket.from_binary dec
        (mkBits ((e.data.isSome :: e.last) ++ payloadBitsSpec enc w e)) d = e :=
      fun e he => from_binary_to_binary enc dec w d e henc hdec (hs e he)
    calc s.map _ = s.map id := List.map_congr_left fun e he => this e he
      _ = s := List.map_id s

/-- A concrete one-byte boolean codec for exercising the C6 round trip. -/
def encB (b : Bool) : TydiBinary := ⟨[if b then 1 else 0], 8⟩

/-- Decoder matching `encB`. -/
def decB (x : TydiBinary) : Bool := x.data.getD 0 0 != 0

/-- A two-element sample stream of dimension depth 1. -/
def sC6 : List (TydiPacket Bool) := [⟨some true, [true]⟩, ⟨none, [false]⟩]

/-- Concrete instantiation of the C6 codec theorem: the boolean codec is
faithful, the sample stream has uniform depth 1, and the layout plus
round-trip conclusion holds for it. -/
theorem tydi_C6_witness :
    (∀ v, Normal (encB v) ∧ (encB v).len = 8) ∧
    (∀ v, decB (encB v) = v) ∧
    (∀ e ∈ sC6, e.last.length = 1) ∧
    (∃ bins, finish encB sC6 8 = some bins ∧ bins.length = sC6.length ∧
      (∀ i, i < sC6.length → ∃ bin e, bins[i]? = some bin ∧ sC6[i]? = some e ∧
        bin.len = 1 + 1 + 8 ∧
        bin.bit 0 = e.data.isSome ∧
        (∀ j, j < 1 → bin.bit (1 + j) = e.last.getD j false) ∧
        (∀ j, j < 8 → bin.bit (1 + 1 + j) =
          ((e.data.map fun v => (encB v).bit j).getD false))) ∧
      packets_from_binaries decB bins 1 = sC6) :=
  ⟨by decide, by decide, by decide,
    tydi_C6 Bool encB decB 8 1 sC6 (by decide) (by decide) (by decide)⟩

end Tydi
